import Mathlib

/-!
Verification development for the MFA Lyon TextGrid batch-editing tools
(`case_converter.py`, `space_final_dot.py`, `textgrid_word_replace.py`).

File contents are modelled as `List Char`.  Each Python regular expression
used by the tools is embedded as a deterministic matcher
(`List Char → Option (data × rest)`) and the `re.sub` / `re.findall`
left-to-right non-overlapping scan is embedded by the generic fuel-based
scanners `reSubF` / `reListF`; a fuel of `content.length` always suffices
because every match consumes at least one character and a failed position
advances by one character.  `\s` is modelled by the ASCII whitespace
characters, `\w` by ASCII alphanumerics plus underscore, and `str.lower` /
`str.upper` by ASCII case mapping.
-/

/-- ASCII model of Python's `\s` character class (and of `str.strip`). -/
def isPySpace (c : Char) : Bool :=
  c = ' ' || c = '\t' || c = '\n' || c = '\r' || c = '\x0b' || c = '\x0c'

/-- ASCII model of Python's `\w` character class. -/
def isWordCh (c : Char) : Bool := c.isAlphanum || c = '_'

/-- Hyphen or underscore, the class `[-_]` of `textgrid_word_replace.py`. -/
def isHU (c : Char) : Bool := c = '-' || c = '_'

/-- The literal characters of the token `text` that opens every pattern. -/
def textTok : List Char := ['t', 'e', 'x', 't']

/-- Does `pat` occur at the head of `s`? -/
def startsWithL : List Char → List Char → Bool
  | [], _ => true
  | _ :: _, [] => false
  | p :: ps, c :: cs => p = c && startsWithL ps cs

/-- Does `pat` occur as a contiguous subsequence of `s`? -/
def containsSeq (pat : List Char) : List Char → Bool
  | [] => startsWithL pat []
  | c :: cs => startsWithL pat (c :: cs) || containsSeq pat cs

/-- Match the literal `w` at the head of the input, returning the rest. -/
def dropLit : List Char → List Char → Option (List Char)
  | [], cs => some cs
  | _ :: _, [] => none
  | p :: ps, c :: cs => if p = c then dropLit ps cs else none

/-- Match `[^"]*` followed by `"`, returning the value and the rest after
the closing quote (the common tail of several of the tools' patterns). -/
def takeValue (cs : List Char) : Option (List Char × List Char) :=
  match cs.dropWhile (fun c => !(c = '"')) with
  | '"' :: r => some (cs.takeWhile (fun c => !(c = '"')), r)
  | _ => none

/-- Match the common prefix `text\s*=\s*"` of all five patterns, returning
the matched characters (through the opening quote) and the rest. -/
def matchTE : List Char → Option (List Char × List Char)
  | 't' :: 'e' :: 'x' :: 't' :: rest =>
    match rest.dropWhile isPySpace with
    | '=' :: r2 =>
      match r2.dropWhile isPySpace with
      | '"' :: r3 =>
        some ('t' :: 'e' :: 'x' :: 't' ::
          (rest.takeWhile isPySpace ++ '=' :: (r2.takeWhile isPySpace ++ ['"'])), r3)
      | _ => none
    | _ => none
  | _ => none

/-- Generic embedding of `re.sub`: scan left to right; at each position try
the matcher; on success emit the replacement `out d` and continue after the
match, otherwise copy one character and advance. -/
def reSubF {μ : Type} (out : μ → List Char) (m : List Char → Option (μ × List Char)) :
    Nat → List Char → List Char
  | _, [] => []
  | 0, cs => cs
  | f + 1, c :: cs =>
    match m (c :: cs) with
    | some (d, rest) => out d ++ reSubF out m f rest
    | none => c :: reSubF out m f cs

/-- Generic embedding of `re.findall` / `re.finditer`: the list of match
data of the same left-to-right non-overlapping scan. -/
def reListF {μ : Type} (m : List Char → Option (μ × List Char)) :
    Nat → List Char → List μ
  | _, [] => []
  | 0, _ => []
  | f + 1, c :: cs =>
    match m (c :: cs) with
    | some (d, rest) => d :: reListF m f rest
    | none => reListF m f cs

/-! ## Case converter (`case_converter.py`) -/

/-- Matcher for `(text\s*=\s*")([^"]*?)(")`: data is (group 1, group 2). -/
def caseM (cs : List Char) : Option ((List Char × List Char) × List Char) :=
  match matchTE cs with
  | some (pre, rest) =>
    match takeValue rest with
    | some (v, rest2) => some ((pre, v), rest2)
    | none => none
  | none => none

/-- The conversion applied to a field value (`str.lower` / `str.upper`). -/
def caseTransform (to_lowercase : Bool) (v : List Char) : List Char :=
  if to_lowercase then v.map Char.toLower else v.map Char.toUpper

/-- The `case_replace` replacement callback: the converted field when the
text changed, the whole match unchanged otherwise. -/
def caseOut (to_lowercase : Bool) (d : List Char × List Char) : List Char :=
  let nv := caseTransform to_lowercase d.2
  if nv ≠ d.2 then d.1 ++ nv ++ ['"'] else d.1 ++ d.2 ++ ['"']

/-- The `re.sub(pattern, case_replace, content)` call. -/
def convert_case_sub (to_lowercase : Bool) (content : List Char) : List Char :=
  reSubF (caseOut to_lowercase) caseM content.length content

/-- The values of all `text` fields found by the pattern (group 2 of each
match of `re.finditer`). -/
def caseValues (content : List Char) : List (List Char) :=
  (reListF caseM content.length content).map (·.2)

/-- The counting loop of `convert_case_in_textgrid`: matches whose
converted value differs from the original. -/
def convert_case_count (to_lowercase : Bool) (content : List Char) : Nat :=
  (caseValues content).countP (fun v => decide (caseTransform to_lowercase v ≠ v))

/-- Result of one per-file operation: reported count, the transformed
content, the file write (if any), the `.bak` write (if any), and whether
the per-file `except` branch ran. -/
structure FileRes where
  count : Nat
  modified : List Char
  written : Option (List Char)
  bak : Option (List Char)
  errored : Bool
deriving Repr, DecidableEq

/-- Embedding of `convert_case_in_textgrid`.  `input = none` models an
exception while handling the file (the `except` branch: report and return
0).  `bakExists` models `os.path.exists(filepath + '.bak')`. -/
def convert_case_in_textgrid (input : Option (List Char))
    (to_lowercase backup bakExists : Bool) : FileRes :=
  match input with
  | none => ⟨0, [], none, none, true⟩
  | some content =>
    let bak := if backup && !bakExists then some content else none
    let count := convert_case_count to_lowercase content
    let modified := convert_case_sub to_lowercase content
    ⟨count, modified, if 0 < count then some modified else none, bak, false⟩

/-- Directory totals of `case_converter.process_directory`:
(files modified, total replacements). -/
def case_process_directory (files : List (Option (List Char)))
    (to_lowercase backup bakExists : Bool) : Nat × Nat :=
  files.foldl (fun acc f =>
    let r := convert_case_in_textgrid f to_lowercase backup bakExists
    (acc.1 + (if 0 < r.count then 1 else 0), acc.2 + r.count)) (0, 0)

/-! ## Word replacement (`textgrid_word_replace.correct_words_in_textgrid`) -/

/-- Matcher for `(text\s*=\s*")` + `re.escape(wrong_word)` + `(")`:
data is group 1 (the prefix through the opening quote). -/
def wordM (w : List Char) (cs : List Char) : Option (List Char × List Char) :=
  match matchTE cs with
  | some (pre, rest) =>
    match dropLit w rest with
    | some ('"' :: r2) => some (pre, r2)
    | _ => none
  | none => none

/-- The replacement `\1` + correct_word + `\2` (group 2 is the quote). -/
def wordOut (c : List Char) (pre : List Char) : List Char := pre ++ c ++ ['"']

/-- One word's `re.sub` pass of the loop body. -/
def word_pass (w c : List Char) (content : List Char) : List Char :=
  reSubF (wordOut c) (wordM w) content.length content

/-- One word's `len(re.findall(...))` of the loop body. -/
def word_count (w : List Char) (content : List Char) : Nat :=
  (reListF (wordM w) content.length content).length

/-- The `for wrong_word, correct_word in word_map.items()` loop: counts are
taken on the running content before that word's substitution.  Returns the
per-word statistics (in dictionary order) and the final content. -/
def word_fold (word_map : List (List Char × List Char)) (content : List Char) :
    List ((List Char × List Char) × Nat) × List Char :=
  word_map.foldl (fun acc p =>
    (acc.1 ++ [(p, word_count p.1 acc.2)], word_pass p.1 p.2 acc.2)) ([], content)

/-- Result of `correct_words_in_textgrid`. -/
structure WordRes where
  stats : List ((List Char × List Char) × Nat)
  modified : List Char
  written : Option (List Char)
  bak : Option (List Char)
  errored : Bool
deriving Repr, DecidableEq

/-- Total replacements reported for one file. -/
def WordRes.total (r : WordRes) : Nat := (r.stats.map (·.2)).sum

/-- Embedding of `correct_words_in_textgrid`.  The `.bak` file is written
unconditionally when `backup` is set (this function does not test for an
existing backup); `bakExists` is accepted for uniformity and ignored, as in
the source.  `input = none` models the `except` branch: an all-zero
statistics dictionary is returned. -/
def correct_words_in_textgrid (input : Option (List Char))
    (word_map : List (List Char × List Char)) (backup bakExists : Bool) : WordRes :=
  match input with
  | none => ⟨word_map.map (fun p => (p, 0)), [], none, none, true⟩
  | some content =>
    let bak := if backup then some content else none
    let sm := word_fold word_map content
    let total : Nat := (sm.1.map (·.2)).sum
    ⟨sm.1, sm.2, if 0 < total then some sm.2 else none, bak, false⟩

/-! ## Parenthesis stripping (`remove_parentheses_content`) -/

/-- Matcher for `(text\s*=\s*"[^"\(]*)\([^\)]*\)([^"]*")`: data is
(group 1, group 2). -/
def parenM (cs : List Char) : Option ((List Char × List Char) × List Char) :=
  match matchTE cs with
  | some (pre, rest) =>
    let a := rest.takeWhile (fun c => !(c = '"') && !(c = '('))
    match rest.dropWhile (fun c => !(c = '"') && !(c = '(')) with
    | '(' :: r1 =>
      let b := r1.dropWhile (fun c => !(c = ')'))
      match b with
      | ')' :: r2 =>
        match takeValue r2 with
        | some (d, r3) => some ((pre ++ a, d ++ ['"']), r3)
        | none => none
      | _ => none
    | _ => none
  | none => none

/-- The replacement `\1\2`. -/
def parenOut (d : List Char × List Char) : List Char := d.1 ++ d.2

/-- Embedding of `remove_parentheses_content` (backup only if absent). -/
def remove_parentheses_content (input : Option (List Char)) (backup bakExists : Bool) :
    FileRes :=
  match input with
  | none => ⟨0, [], none, none, true⟩
  | some content =>
    let bak := if backup && !bakExists then some content else none
    let count := (reListF parenM content.length content).length
    let modified := reSubF parenOut parenM content.length content
    ⟨count, modified, if 0 < count then some modified else none, bak, false⟩

/-! ## Hyphen/underscore folding (`replace_hyphens_underscores`) -/

/-- Split a value at its last hyphen/underscore: greedy `[^"]*` followed by
`[-_]` picks the last such character before the closing quote. -/
def splitLastHU : List Char → Option (List Char × List Char)
  | [] => none
  | c :: cs =>
    match splitLastHU cs with
    | some (b, a) => some (c :: b, a)
    | none => if isHU c then some ([], cs) else none

/-- Matcher for `(text\s*=\s*"[^"]*)[-_]([^"]*")`: data is
(group 1, group 2). -/
def hyphenM (cs : List Char) : Option ((List Char × List Char) × List Char) :=
  match matchTE cs with
  | some (pre, rest) =>
    match takeValue rest with
    | some (v, r2) =>
      match splitLastHU v with
      | some (b, a) => some ((pre ++ b, a ++ ['"']), r2)
      | none => none
    | none => none
  | none => none

/-- The replacement `\1 \2`. -/
def hyphenOut (d : List Char × List Char) : List Char := d.1 ++ ' ' :: d.2

/-- One `re.sub(pattern_hyphen, r'\1 \2', ...)` pass of the `while` loop. -/
def hyphenSub (content : List Char) : List Char :=
  reSubF hyphenOut hyphenM content.length content

/-- Number of matches of the hyphen pattern (`len(re.findall(...))`). -/
def hyphenMatches (content : List Char) : Nat :=
  (reListF hyphenM content.length content).length

/-- Number of hyphen/underscore characters in the content (the measure that
makes the `while True` loop terminate). -/
def huCount (content : List Char) : Nat := content.countP isHU

/-- The `while True` loop: substitute until a pass changes nothing.  The
fuel `huCount content + 1` is an upper bound on the number of iterations
(each changing pass removes at least one hyphen/underscore), proved
sufficient by `hyphenIter_fix`. -/
def hyphenIter : Nat → List Char → List Char
  | 0, m => m
  | f + 1, m =>
    let t := hyphenSub m
    if t = m then m else hyphenIter f t

/-- The fully folded content produced by the loop. -/
def hyphenLoop (content : List Char) : List Char :=
  hyphenIter (huCount content + 1) content

/-- Embedding of `replace_hyphens_underscores`: `occurrences` is counted on
the original content, `remaining` on the folded content, and the reported
count is their difference. -/
def replace_hyphens_underscores (input : Option (List Char)) (backup bakExists : Bool) :
    FileRes :=
  match input with
  | none => ⟨0, [], none, none, true⟩
  | some content =>
    let bak := if backup && !bakExists then some content else none
    let occurrences := hyphenMatches content
    let modified := hyphenLoop content
    let remaining := hyphenMatches modified
    let count := occurrences - remaining
    ⟨count, modified, if 0 < count then some modified else none, bak, false⟩

/-! ## Spacing fix (`space_final_dot.fix_space_before_dot`) -/

/-- The anchored match of `\w\."` at one position: the current character
must be a word character, immediately followed by a period and a double
quote. -/
def wdqBase (c : Char) (cs : List Char) : Option (List Char × Char × List Char) :=
  match cs with
  | c1 :: c2 :: t =>
    if c1 = '.' && c2 = '"' && isWordCh c then some ([], c, t) else none
  | _ => none

/-- Search for the greedy match of `.*\w\."` after the opening quote: the
last position before any newline holding a word character immediately
followed by a period and a double quote.  Returns (the `.*\w` part split as
prefix and word character, the rest after the quote). -/
def findLastWDQ : List Char → Option (List Char × Char × List Char)
  | [] => none
  | c :: cs =>
    if c = '\n' then none
    else
      match findLastWDQ cs with
      | some (u, wc, t) => some (c :: u, wc, t)
      | none => wdqBase c cs

/-- The anchored match of `\w\.\s+"` at one position: the current character
must be a word character, followed by a period, a nonempty whitespace run
and a double quote. -/
def wdsBase (c : Char) (cs : List Char) :
    Option (List Char × Char × List Char × List Char) :=
  match cs with
  | c1 :: cs2 =>
    if c1 = '.' && isWordCh c then
      match cs2.dropWhile isPySpace, cs2.takeWhile isPySpace with
      | q :: t, s0 :: sp => if q = '"' then some ([], c, s0 :: sp, t) else none
      | _, _ => none
    else none
  | _ => none

/-- Search for the greedy match of `.*\w\.\s+"`: the last position before
any newline holding a word character followed by a period, one or more
whitespace characters and a double quote.  Returns (prefix, word character,
the whitespace run, the rest after the quote). -/
def findLastWDS : List Char → Option (List Char × Char × List Char × List Char)
  | [] => none
  | c :: cs =>
    if c = '\n' then none
    else
      match findLastWDS cs with
      | some (u, wc, sp, t) => some (c :: u, wc, sp, t)
      | none => wdsBase c cs

/-- Matcher for pattern 1, `(text\s*=\s*".*\w)(\.)(")`: data is
(group 1 split as TE prefix, `.*` part, word character). -/
def p1M (cs : List Char) : Option ((List Char × List Char × Char) × List Char) :=
  match matchTE cs with
  | some (pre, rest) =>
    match findLastWDQ rest with
    | some (u, wc, t) => some ((pre, u, wc), t)
    | none => none
  | none => none

/-- The `add_space_before_dot1` replacement: group 1 + " ." + group 3. -/
def p1Out (d : List Char × List Char × Char) : List Char :=
  d.1 ++ d.2.1 ++ d.2.2 :: ' ' :: '.' :: ['"']

/-- Matcher for pattern 2, `(text\s*=\s*".*\w)(\.)\s+(")`. -/
def p2M (cs : List Char) : Option ((List Char × List Char × Char) × List Char) :=
  match matchTE cs with
  | some (pre, rest) =>
    match findLastWDS rest with
    | some (u, wc, _, t) => some ((pre, u, wc), t)
    | none => none
  | none => none

/-- The `add_space_before_dot2` replacement: group 1 + " ." + group 3 (the
matched whitespace run is dropped). -/
def p2Out (d : List Char × List Char × Char) : List Char :=
  d.1 ++ d.2.1 ++ d.2.2 :: ' ' :: '.' :: ['"']

/-- Result of `fix_space_before_dot` with the two sub-case counts. -/
structure SpaceRes where
  count1 : Nat
  count2 : Nat
  total : Nat
  modified : List Char
  written : Option (List Char)
  bak : Option (List Char)
  errored : Bool
deriving Repr, DecidableEq

/-- Embedding of `fix_space_before_dot`: both counts are taken on the
original content, the two substitutions are applied in sequence, and the
file is written only when the result differs from the original. -/
def fix_space_before_dot (input : Option (List Char)) (backup bakExists : Bool) :
    SpaceRes :=
  match input with
  | none => ⟨0, 0, 0, [], none, none, true⟩
  | some content =>
    let bak := if backup && !bakExists then some content else none
    let count1 := (reListF p1M content.length content).length
    let count2 := (reListF p2M content.length content).length
    let m1 := reSubF p1Out p1M content.length content
    let m2 := reSubF p2Out p2M m1.length m1
    let total := count1 + count2
    ⟨count1, count2, total, m2, if m2 ≠ content then some m2 else none, bak, false⟩

/-- Directory totals of `space_final_dot.process_directory`:
(files modified, total replacements). -/
def space_process_directory (files : List (Option (List Char)))
    (backup bakExists : Bool) : Nat × Nat :=
  files.foldl (fun acc f =>
    let r := fix_space_before_dot f backup bakExists
    (acc.1 + (if 0 < r.total then 1 else 0), acc.2 + r.total)) (0, 0)

/-! ## Word lists, directory processing and exit codes
(`textgrid_word_replace.py`) -/

/-- `str.strip()` on one line. -/
def stripChars (s : List Char) : List Char :=
  ((s.dropWhile isPySpace).reverse.dropWhile isPySpace).reverse

/-- Insertion into the Python `dict` built by `dict(zip(...))`: a repeated
key keeps its first position but takes the new value. -/
def dictInsert (d : List (List Char × List Char)) (k v : List Char) :
    List (List Char × List Char) :=
  if d.any (fun p => p.1 == k) then d.map (fun p => if p.1 == k then (k, v) else p)
  else d ++ [(k, v)]

/-- `dict(zip(wrong_words, correct_words))` as an ordered association list. -/
def dictOfPairs (l : List (List Char × List Char)) : List (List Char × List Char) :=
  l.foldl (fun d p => dictInsert d p.1 p.2) []

/-- Result of `load_word_lists`: the word map, and whether the `except`
branch reported an error (the mismatch `ValueError` is caught and printed
inside the function, which then returns an empty dictionary). -/
structure LoadRes where
  word_map : List (List Char × List Char)
  errored : Bool
deriving Repr, DecidableEq

/-- Embedding of `load_word_lists` on the two files' lines. -/
def load_word_lists (wrongLines correctLines : List (List Char)) : LoadRes :=
  let w := (wrongLines.map stripChars).filter (fun l => !l.isEmpty)
  let c := (correctLines.map stripChars).filter (fun l => !l.isEmpty)
  if w.length ≠ c.length then ⟨[], true⟩
  else ⟨dictOfPairs (w.zip c), false⟩

/-- The per-file operations `process_directory` runs on one TextGrid file
(in source order: word replacement, then parenthesis stripping, then
hyphen folding). -/
structure PerFileOps where
  wordRes : Option WordRes
  parenRes : Option FileRes
  hyphRes : Option FileRes
deriving Repr, DecidableEq

/-- One iteration of the file loop of `process_directory`. -/
def word_tool_file (word_map : List (List Char × List Char))
    (remove_parens replace_hyphens backup bakExists : Bool)
    (content : Option (List Char)) : PerFileOps :=
  { wordRes := if word_map.isEmpty then none
      else some (correct_words_in_textgrid content word_map backup bakExists)
    parenRes := if remove_parens then
      some (remove_parentheses_content content backup bakExists) else none
    hyphRes := if replace_hyphens then
      some (replace_hyphens_underscores content backup bakExists) else none }

/-- Result of `textgrid_word_replace.process_directory`: the per-file
operations actually performed (empty when the function returned before the
file loop), whether `load_word_lists` reported an error, and whether the
"Impossible de continuer" early return fired. -/
structure WordDirRes where
  files_ops : List PerFileOps
  load_error : Bool
  aborted_no_words : Bool
deriving Repr, DecidableEq

/-- Embedding of `textgrid_word_replace.process_directory`.  `wrongLines` /
`correctLines` are `none` when the corresponding CLI options were not
given. -/
def word_process_directory (wrongLines correctLines : Option (List (List Char)))
    (files : List (Option (List Char)))
    (backup remove_parens replace_hyphens : Bool) : WordDirRes :=
  let given := wrongLines.isSome && correctLines.isSome
  let lr : LoadRes :=
    match wrongLines, correctLines with
    | some wl, some cl => load_word_lists wl cl
    | _, _ => ⟨[], false⟩
  if given && lr.word_map.isEmpty && !remove_parens && !replace_hyphens then
    ⟨[], lr.errored, true⟩
  else if files.isEmpty then ⟨[], lr.errored, false⟩
  else
    ⟨files.map (word_tool_file lr.word_map remove_parens replace_hyphens backup false),
      lr.errored, false⟩

/-- Exit code of the `__main__` block of `textgrid_word_replace.py`: the
argument checks exit with code 1; once `process_directory` is called the
script ends with the implicit exit code 0.  Note that no check inspects
the contents of the word-list files. -/
def textgrid_main_exit (dir_ok wrong_given correct_given wrong_isfile
    correct_isfile remove_parens replace_hyphens : Bool) : Nat :=
  if !dir_ok then 1
  else if (wrong_given && !correct_given) || (!wrong_given && correct_given) then 1
  else if wrong_given && !wrong_isfile then 1
  else if correct_given && !correct_isfile then 1
  else if !wrong_given && !remove_parens && !replace_hyphens then 1
  else 0

/-- The word-replacement count one file contributes to the word tool's
directory totals (`file_total`; 0 when word replacement did not run). -/
def opWordCount (o : PerFileOps) : Nat :=
  match o.wordRes with
  | some w => w.total
  | none => 0

/-- The parenthesis-removal count one file contributes (0 when the option
was off). -/
def opParenCount (o : PerFileOps) : Nat :=
  match o.parenRes with
  | some p => p.count
  | none => 0

/-- The hyphen-folding count one file contributes (0 when the option was
off). -/
def opHyphCount (o : PerFileOps) : Nat :=
  match o.hyphRes with
  | some h => h.count
  | none => 0

/-- One step of the counter accumulation of the word tool's file loop:
`file_modified` is set when any performed operation reports a positive
count, and the three totals add the per-file counts. -/
def wordDirStep (acc : Nat × Nat × Nat × Nat) (o : PerFileOps) :
    Nat × Nat × Nat × Nat :=
  (acc.1 +
    (if 0 < opWordCount o || 0 < opParenCount o || 0 < opHyphCount o then 1 else 0),
   acc.2.1 + opWordCount o, acc.2.2.1 + opParenCount o, acc.2.2.2 + opHyphCount o)

/-- The directory-level counters of `textgrid_word_replace.process_directory`:
(files modified, total word replacements, parentheses removed, hyphens
replaced), accumulated exactly as the source's file loop does. -/
def word_dir_totals (ops : List PerFileOps) : Nat × Nat × Nat × Nat :=
  ops.foldl wordDirStep (0, 0, 0, 0)

/-! ## Structured TextGrid contents

A family of well-formed contents used to state the per-field behaviour of
the operations: a leading raw segment followed by `text = "value"` fields,
each with a trailing raw segment. -/

/-- The characters `text` + spaces + `=` + spaces + `"` opening a field. -/
def tePrefix (ws1 ws2 : List Char) : List Char :=
  't' :: 'e' :: 'x' :: 't' :: (ws1 ++ '=' :: (ws2 ++ ['"']))

/-- One `text` field: whitespace around `=` and the quoted value. -/
structure Fld where
  ws1 : List Char
  ws2 : List Char
  v : List Char
deriving Repr, DecidableEq

/-- The characters of one field. -/
def fldChars (fl : Fld) : List Char := tePrefix fl.ws1 fl.ws2 ++ (fl.v ++ ['"'])

/-- A structured content: raw segment, then fields each followed by a raw
segment. -/
def mkTG : List Char → List (Fld × List Char) → List Char
  | r0, [] => r0
  | r0, (fl, r) :: fs => r0 ++ (fldChars fl ++ mkTG r fs)

/-- A well-formed raw segment or value: no double quote and no occurrence
of the token `text`. -/
def okSeg (s : List Char) : Prop := '"' ∉ s ∧ containsSeq textTok s = false

/-- A well-formed field: whitespace runs around `=`, well-formed value. -/
def okFld (fl : Fld) : Prop :=
  (∀ c ∈ fl.ws1, isPySpace c = true) ∧ (∀ c ∈ fl.ws2, isPySpace c = true) ∧ okSeg fl.v

/-- A well-formed structured content. -/
def okTG (r0 : List Char) (fs : List (Fld × List Char)) : Prop :=
  okSeg r0 ∧ ∀ p ∈ fs, okFld p.1 ∧ okSeg p.2

/-- Apply a value transform to every field of an item list. -/
def mapVals (g : List Char → List Char) (fs : List (Fld × List Char)) :
    List (Fld × List Char) :=
  fs.map (fun p => (⟨p.1.ws1, p.1.ws2, g p.1.v⟩, p.2))

/-- The value transform of one case-conversion match. -/
def caseValueOut (to_lowercase : Bool) (v : List Char) : List Char :=
  if caseTransform to_lowercase v ≠ v then caseTransform to_lowercase v else v

/-- The value transform of one word pass. -/
def wordValueOut (w c v : List Char) : List Char := if v = w then c else v

/-- The end-to-end value transform of the word-map loop: at each step a
value exactly equal to the current wrong word becomes its correct word. -/
def chainApply (word_map : List (List Char × List Char)) (v : List Char) : List Char :=
  word_map.foldl (fun acc p => if acc = p.1 then p.2 else acc) v

/-- The first parenthesis span of a value: the part before the first `(`
and the part after the next `)` (when both exist). -/
def parenSplit (v : List Char) : Option (List Char × List Char) :=
  match v.dropWhile (fun c => !(c = '"') && !(c = '(')) with
  | '(' :: r1 =>
    match r1.dropWhile (fun c => !(c = ')')) with
    | ')' :: r2 => some (v.takeWhile (fun c => !(c = '"') && !(c = '(')), r2)
    | _ => none
  | _ => none

/-- The value transform of one parenthesis-stripping match. -/
def parenValueOut (v : List Char) : List Char :=
  match parenSplit v with
  | some (a, d) => a ++ d
  | none => v

/-- A value is safe for the parenthesis pattern when any `(` it holds is
followed by a `)` still inside the value. -/
def parenOKv (v : List Char) : Prop := '(' ∈ v → (parenSplit v).isSome = true

/-- The value transform of one hyphen pass: the last `-`/`_` becomes a
space. -/
def hyphenValueOut (v : List Char) : List Char :=
  match splitLastHU v with
  | some (b, a) => b ++ ' ' :: a
  | none => v

/-- The value transform of the whole hyphen loop: every `-`/`_` becomes a
space. -/
def huMapVal (v : List Char) : List Char := v.map (fun c => if isHU c then ' ' else c)

/-- The anchored value-level match of `\w\.` at the very end of a value:
the rest must be exactly a period. -/
def wdBaseV (c : Char) (cs : List Char) : Option (List Char × Char) :=
  match cs with
  | [c1] => if c1 = '.' && isWordCh c then some ([], c) else none
  | _ => none

/-- Does the value end with a word character and a period?  Returns the
prefix and that word character. -/
def endsWD : List Char → Option (List Char × Char)
  | [] => none
  | c :: cs =>
    match endsWD cs with
    | some (u, wc) => some (c :: u, wc)
    | none => wdBaseV c cs

/-- The anchored value-level match of `\w\.\s+` at the very end of a value:
the rest must be a period followed by a nonempty all-whitespace run. -/
def wdsBaseV (c : Char) (cs : List Char) : Option (List Char × Char × List Char) :=
  match cs with
  | c1 :: sp =>
    if c1 = '.' && isWordCh c && !sp.isEmpty && sp.all isPySpace then
      some ([], c, sp)
    else none
  | _ => none

/-- Does the value end with a word character, a period and a nonempty all-
whitespace run?  Returns the prefix, the word character and the run. -/
def endsWDS : List Char → Option (List Char × Char × List Char)
  | [] => none
  | c :: cs =>
    match endsWDS cs with
    | some (u, wc, sp) => some (c :: u, wc, sp)
    | none => wdsBaseV c cs

/-- The value transform of pattern 1 of the spacing fix. -/
def spaceVal1 (v : List Char) : List Char :=
  match endsWD v with
  | some (u, wc) => u ++ wc :: ' ' :: ['.']
  | none => v

/-- The value transform of pattern 2 of the spacing fix. -/
def spaceVal2 (v : List Char) : List Char :=
  match endsWDS v with
  | some (u, wc, _) => u ++ wc :: ' ' :: ['.']
  | none => v

/-- Newline separation: every field is followed by a raw segment starting
with a newline, except possibly the last, whose raw segment may also be
empty. -/
def nlSep : List (Fld × List Char) → Prop
  | [] => True
  | [(_, r)] => r = [] ∨ ∃ r', r = '\n' :: r'
  | (_, r) :: rest => (∃ r', r = '\n' :: r') ∧ nlSep rest

/-! ## Elementary facts about the per-file results -/

theorem backup_opt (b : Bool) (x : List Char) :
    (if b then some x else none) = none ∨ (if b then some x else none) = some x := by
  cases b <;> simp

/-- C8: for every input file and every operation, the content written to
the `.bak` file (when one is written) is exactly the content read at the
start of the operation, before any transformation. -/
theorem c8_backup_identical :
    (∀ c low b e, (convert_case_in_textgrid (some c) low b e).bak = none ∨
      (convert_case_in_textgrid (some c) low b e).bak = some c)
  ∧ (∀ c b e, (fix_space_before_dot (some c) b e).bak = none ∨
      (fix_space_before_dot (some c) b e).bak = some c)
  ∧ (∀ c wm b e, (correct_words_in_textgrid (some c) wm b e).bak = none ∨
      (correct_words_in_textgrid (some c) wm b e).bak = some c)
  ∧ (∀ c b e, (remove_parentheses_content (some c) b e).bak = none ∨
      (remove_parentheses_content (some c) b e).bak = some c)
  ∧ (∀ c b e, (replace_hyphens_underscores (some c) b e).bak = none ∨
      (replace_hyphens_underscores (some c) b e).bak = some c) :=
  ⟨fun c _ b e => backup_opt (b && !e) c,
   fun c b e => backup_opt (b && !e) c,
   fun c _ b _ => backup_opt b c,
   fun c b e => backup_opt (b && !e) c,
   fun c b e => backup_opt (b && !e) c⟩

/-- C10: every per-file operation decides the `.bak` write from the backup
flag (and, except for word replacement, the prior existence of the backup)
alone, independently of the content and of whether any change occurs; word
replacement writes the backup whenever backups are enabled, overwriting an
existing `.bak` even on a call that makes zero replacements. -/
theorem c10_backup_frame :
    (∀ c low b e, (convert_case_in_textgrid (some c) low b e).bak =
      if b && !e then some c else none)
  ∧ (∀ c b e, (fix_space_before_dot (some c) b e).bak =
      if b && !e then some c else none)
  ∧ (∀ c b e, (remove_parentheses_content (some c) b e).bak =
      if b && !e then some c else none)
  ∧ (∀ c b e, (replace_hyphens_underscores (some c) b e).bak =
      if b && !e then some c else none)
  ∧ (∀ c wm b e, (correct_words_in_textgrid (some c) wm b e).bak =
      if b then some c else none) :=
  ⟨fun _ _ _ _ => rfl, fun _ _ _ => rfl, fun _ _ _ => rfl, fun _ _ _ => rfl,
   fun _ _ _ _ => rfl⟩

theorem word_none_total (wm : List (List Char × List Char)) (b e : Bool) :
    (correct_words_in_textgrid none wm b e).total = 0 := by
  show ((wm.map (fun p => (p, 0))).map (·.2)).sum = 0
  rw [List.map_map]
  refine List.sum_eq_zero ?_
  intro x hx
  rw [List.mem_map] at hx
  obtain ⟨p, _, hp⟩ := hx
  exact hp.symm

theorem opWordCount_err (wm : List (List Char × List Char)) (rp rh b e : Bool) :
    opWordCount (word_tool_file wm rp rh b e none) = 0 := by
  by_cases hwm : wm.isEmpty = true
  · simp [opWordCount, word_tool_file, hwm]
  · simp [opWordCount, word_tool_file, hwm, word_none_total]

theorem opParenCount_err (wm : List (List Char × List Char)) (rp rh b e : Bool) :
    opParenCount (word_tool_file wm rp rh b e none) = 0 := by
  cases rp
  · simp [opParenCount, word_tool_file]
  · simp [opParenCount, word_tool_file, remove_parentheses_content]

theorem opHyphCount_err (wm : List (List Char × List Char)) (rp rh b e : Bool) :
    opHyphCount (word_tool_file wm rp rh b e none) = 0 := by
  cases rh
  · simp [opHyphCount, word_tool_file]
  · simp [opHyphCount, word_tool_file, replace_hyphens_underscores]

theorem wordDirStep_err (wm : List (List Char × List Char)) (rp rh b e : Bool)
    (acc : Nat × Nat × Nat × Nat) :
    wordDirStep acc (word_tool_file wm rp rh b e none) = acc := by
  rw [wordDirStep, opWordCount_err wm rp rh b e, opParenCount_err wm rp rh b e,
    opHyphCount_err wm rp rh b e]
  simp

theorem word_dir_totals_skip (wm : List (List Char × List Char)) (rp rh b : Bool)
    (l r : List (Option (List Char))) :
    word_dir_totals ((l ++ none :: r).map (word_tool_file wm rp rh b false)) =
      word_dir_totals ((l ++ r).map (word_tool_file wm rp rh b false)) := by
  show List.foldl wordDirStep (0, 0, 0, 0) _ =
    List.foldl wordDirStep (0, 0, 0, 0) _
  rw [List.map_append, List.map_append, List.foldl_append, List.foldl_append,
    List.map_cons, List.foldl_cons, wordDirStep_err]

theorem word_totals_plain_skip (wm : List (List Char × List Char)) (rp rh b : Bool)
    (l r : List (Option (List Char))) (err : Bool) :
    word_dir_totals ((if (l ++ none :: r).isEmpty = true
        then (⟨[], err, false⟩ : WordDirRes)
        else ⟨(l ++ none :: r).map (word_tool_file wm rp rh b false),
          err, false⟩).files_ops) =
      word_dir_totals ((if (l ++ r).isEmpty = true
        then (⟨[], err, false⟩ : WordDirRes)
        else ⟨(l ++ r).map (word_tool_file wm rp rh b false),
          err, false⟩).files_ops) := by
  rw [if_neg (by simp : ¬ (l ++ none :: r).isEmpty = true)]
  by_cases h2 : (l ++ r).isEmpty = true
  · obtain ⟨hl, hr⟩ : l = [] ∧ r = [] :=
      List.append_eq_nil.mp (by simpa using h2)
    subst hl
    subst hr
    rw [if_pos h2]
    show word_dir_totals [word_tool_file wm rp rh b false none] = word_dir_totals []
    show wordDirStep (0, 0, 0, 0) (word_tool_file wm rp rh b false none) = (0, 0, 0, 0)
    exact wordDirStep_err wm rp rh b false (0, 0, 0, 0)
  · rw [if_neg h2]
    show word_dir_totals ((l ++ none :: r).map (word_tool_file wm rp rh b false)) =
      word_dir_totals ((l ++ r).map (word_tool_file wm rp rh b false))
    exact word_dir_totals_skip wm rp rh b l r

theorem word_totals_proc_skip (wl cl : Option (List (List Char)))
    (l r : List (Option (List Char))) (b rp rh : Bool) :
    word_dir_totals
        (word_process_directory wl cl (l ++ none :: r) b rp rh).files_ops =
      word_dir_totals
        (word_process_directory wl cl (l ++ r) b rp rh).files_ops := by
  cases wl with
  | none =>
    show word_dir_totals ((if (l ++ none :: r).isEmpty = true
        then (⟨[], false, false⟩ : WordDirRes)
        else ⟨(l ++ none :: r).map (word_tool_file [] rp rh b false),
          false, false⟩).files_ops) =
      word_dir_totals ((if (l ++ r).isEmpty = true
        then (⟨[], false, false⟩ : WordDirRes)
        else ⟨(l ++ r).map (word_tool_file [] rp rh b false),
          false, false⟩).files_ops)
    exact word_totals_plain_skip [] rp rh b l r false
  | some w =>
    cases cl with
    | none =>
      show word_dir_totals ((if (l ++ none :: r).isEmpty = true
          then (⟨[], false, false⟩ : WordDirRes)
          else ⟨(l ++ none :: r).map (word_tool_file [] rp rh b false),
            false, false⟩).files_ops) =
        word_dir_totals ((if (l ++ r).isEmpty = true
          then (⟨[], false, false⟩ : WordDirRes)
          else ⟨(l ++ r).map (word_tool_file [] rp rh b false),
            false, false⟩).files_ops)
      exact word_totals_plain_skip [] rp rh b l r false
    | some c =>
      show word_dir_totals
          ((if ((load_word_lists w c).word_map.isEmpty && !rp && !rh) = true
            then (⟨[], (load_word_lists w c).errored, true⟩ : WordDirRes)
            else if (l ++ none :: r).isEmpty = true
              then ⟨[], (load_word_lists w c).errored, false⟩
              else ⟨(l ++ none :: r).map
                  (word_tool_file (load_word_lists w c).word_map rp rh b false),
                (load_word_lists w c).errored, false⟩).files_ops) =
        word_dir_totals
          ((if ((load_word_lists w c).word_map.isEmpty && !rp && !rh) = true
            then (⟨[], (load_word_lists w c).errored, true⟩ : WordDirRes)
            else if (l ++ r).isEmpty = true
              then ⟨[], (load_word_lists w c).errored, false⟩
              else ⟨(l ++ r).map
                  (word_tool_file (load_word_lists w c).word_map rp rh b false),
                (load_word_lists w c).errored, false⟩).files_ops)
      by_cases h1 : ((load_word_lists w c).word_map.isEmpty && !rp && !rh) = true
      · rw [if_pos h1, if_pos h1]
      · rw [if_neg h1, if_neg h1]
        exact word_totals_plain_skip (load_word_lists w c).word_map rp rh b l r
          (load_word_lists w c).errored

/-- C9: a per-file exception is absorbed inside the operation, for every
per-file operation of each tool (case conversion, spacing fix, word
replacement, parenthesis stripping, hyphen folding): the result reports
the error, carries a zero count (an all-zero statistics dictionary for
word replacement) and writes nothing, and a failing file contributes
nothing to any tool's directory totals, which are those of the run
without it. -/
theorem c9_errors_local :
    (∀ low b e, convert_case_in_textgrid none low b e = ⟨0, [], none, none, true⟩)
  ∧ (∀ b e, fix_space_before_dot none b e = ⟨0, 0, 0, [], none, none, true⟩)
  ∧ (∀ wm b e, (correct_words_in_textgrid none wm b e).stats =
        wm.map (fun p => (p, 0))
      ∧ (correct_words_in_textgrid none wm b e).total = 0
      ∧ (correct_words_in_textgrid none wm b e).written = none
      ∧ (correct_words_in_textgrid none wm b e).errored = true)
  ∧ (∀ b e, remove_parentheses_content none b e = ⟨0, [], none, none, true⟩)
  ∧ (∀ b e, replace_hyphens_underscores none b e = ⟨0, [], none, none, true⟩)
  ∧ (∀ l r low b e, case_process_directory (l ++ none :: r) low b e =
      case_process_directory (l ++ r) low b e)
  ∧ (∀ l r b e, space_process_directory (l ++ none :: r) b e =
      space_process_directory (l ++ r) b e)
  ∧ (∀ wl cl l r b rp rh,
      word_dir_totals
          (word_process_directory wl cl (l ++ none :: r) b rp rh).files_ops =
        word_dir_totals
          (word_process_directory wl cl (l ++ r) b rp rh).files_ops) := by
  refine ⟨fun _ _ _ => rfl, fun _ _ => rfl,
    fun wm b e => ⟨rfl, word_none_total wm b e, rfl, rfl⟩,
    fun _ _ => rfl, fun _ _ => rfl,
    fun l r low b e => ?_, fun l r b e => ?_,
    fun wl cl l r b rp rh => word_totals_proc_skip wl cl l r b rp rh⟩
  · show List.foldl _ (0, 0) (l ++ none :: r) = List.foldl _ (0, 0) (l ++ r)
    rw [List.foldl_append, List.foldl_cons, List.foldl_append]
    congr 1
  · show List.foldl _ (0, 0) (l ++ none :: r) = List.foldl _ (0, 0) (l ++ r)
    rw [List.foldl_append, List.foldl_cons, List.foldl_append]
    congr 1

/-- C1 counterexample: with the word mapping `a → a`, the field
`text = "a"` has a transformed value equal to its original value, yet
word replacement counts it as one replacement and rewrites the file (with
identical content). -/
theorem c1_counterexample :
    (correct_words_in_textgrid (some (("text = \"a\"").toList))
        [(['a'], ['a'])] true false).total = 1
  ∧ (correct_words_in_textgrid (some (("text = \"a\"").toList))
        [(['a'], ['a'])] true false).modified = ("text = \"a\"").toList
  ∧ (correct_words_in_textgrid (some (("text = \"a\"").toList))
        [(['a'], ['a'])] true false).written = some (("text = \"a\"").toList) := by
  refine ⟨by decide, by decide, by decide⟩

/-- C1 (amended): for case conversion, a content all of whose field values
are fixed by the conversion reports zero changes and is not written; the
parenthesis, hyphen and word-replacement operations write only when their
reported count is positive, and the spacing fix writes only content that
actually differs from the original.  (Word replacement, by contrast, counts
an exact match and rewrites the file even when the mapped correct word
equals the wrong word, so a no-op field can be counted there.) -/
theorem c1_noop_policy_amended :
    (∀ content low b e, (∀ v ∈ caseValues content, caseTransform low v = v) →
      (convert_case_in_textgrid (some content) low b e).count = 0 ∧
      (convert_case_in_textgrid (some content) low b e).written = none)
  ∧ (∀ content b e, (remove_parentheses_content (some content) b e).count = 0 →
      (remove_parentheses_content (some content) b e).written = none)
  ∧ (∀ content b e, (replace_hyphens_underscores (some content) b e).count = 0 →
      (replace_hyphens_underscores (some content) b e).written = none)
  ∧ (∀ content b e m, (fix_space_before_dot (some content) b e).written = some m →
      m ≠ content)
  ∧ (∀ content wm b e, (correct_words_in_textgrid (some content) wm b e).total = 0 →
      (correct_words_in_textgrid (some content) wm b e).written = none) := by
  refine ⟨fun content low b e h => ?_, fun content b e h => ?_, fun content b e h => ?_,
    fun content b e m h => ?_, fun content wm b e h => ?_⟩
  · have hc : convert_case_count low content = 0 := by
      rw [convert_case_count, List.countP_eq_zero]
      intro v hv
      simp [h v hv]
    constructor
    · exact hc
    · show (if 0 < convert_case_count low content then _ else none) = none
      rw [hc]
      simp
  · replace h : (reListF parenM content.length content).length = 0 := h
    show (if 0 < (reListF parenM content.length content).length then _ else none) = none
    rw [h]
    simp
  · replace h : hyphenMatches content - hyphenMatches (hyphenLoop content) = 0 := h
    show (if 0 < hyphenMatches content - hyphenMatches (hyphenLoop content)
      then _ else none) = none
    rw [h]
    simp
  · revert h
    show (if _ ≠ content then _ else none) = some m → m ≠ content
    split
    · rename_i hne
      intro hm
      rw [← Option.some_inj.mp hm]
      exact hne
    · intro hm
      exact absurd hm (by simp)
  · revert h
    show ((correct_words_in_textgrid (some content) wm b e).stats.map (·.2)).sum = 0 →
      (correct_words_in_textgrid (some content) wm b e).written = none
    intro h
    show (if 0 < ((word_fold wm content).1.map (·.2)).sum then _ else none) = none
    have : ((word_fold wm content).1.map (·.2)).sum = 0 := h
    rw [this]
    simp

/-- C1 witness: lowercase conversion of a content whose only field value is
already lowercase reports zero changes and leaves the file unwritten. -/
theorem c1_noop_policy_amended_witness :
    (convert_case_in_textgrid (some (("text = \"abc\"").toList)) true true false).count = 0 ∧
    (convert_case_in_textgrid (some (("text = \"abc\"").toList)) true true false).written
      = none :=
  c1_noop_policy_amended.1 (("text = \"abc\"").toList) true true false (by decide)

/-- C2 counterexample: with a valid directory, both list files present but
holding two lines versus one, and no other action flag, the mismatch is
reported from inside `load_word_lists`, yet the `__main__` checks never
inspect the list contents, so the process exit code is 0, not 1; and with
`--remove-parentheses` set the mismatch does not stop per-file processing. -/
theorem c2_counterexample :
    textgrid_main_exit true true true true true false false = 0
  ∧ load_word_lists [['a'], ['b']] [['c']] = ⟨[], true⟩
  ∧ word_process_directory (some [['a'], ['b']]) (some [['c']])
      [some (("text = \"x\"").toList)] true false false = ⟨[], true, true⟩
  ∧ (word_process_directory (some [['a'], ['b']]) (some [['c']])
      [some (("text = \"x\"").toList)] true true false).files_ops ≠ [] := by
  refine ⟨by decide, by decide, by decide, by decide⟩

/-- C2 (amended): when the two word-list files hold different numbers of
non-empty lines the error is reported (from inside `load_word_lists`) and,
when no other action flag is set, `process_directory` returns before any
TextGrid file is touched — but the process exits with code 0, not 1; and
when parenthesis stripping or hyphen folding is requested, per-file
processing proceeds despite the mismatch. -/
theorem c2_mismatch_amended (wl cl : List (List Char))
    (h : ((wl.map stripChars).filter (fun l => !l.isEmpty)).length ≠
      ((cl.map stripChars).filter (fun l => !l.isEmpty)).length) :
    load_word_lists wl cl = ⟨[], true⟩
  ∧ (∀ files b, word_process_directory (some wl) (some cl) files b false false =
      ⟨[], true, true⟩)
  ∧ (∀ rp rh, textgrid_main_exit true true true true true rp rh = 0)
  ∧ (∀ files b rp rh, files ≠ [] → (rp || rh) = true →
      (word_process_directory (some wl) (some cl) files b rp rh).files_ops.length =
        files.length) := by
  have hl : load_word_lists wl cl = ⟨[], true⟩ := by
    rw [load_word_lists, if_pos h]
  refine ⟨hl, fun files b => ?_, fun rp rh => by cases rp <;> cases rh <;> rfl,
    fun files b rp rh hf hrp => ?_⟩
  · rw [word_process_directory, hl]
    rfl
  · rw [word_process_directory, hl]
    rw [if_neg (by rcases Bool.or_eq_true_iff.mp hrp with h' | h' <;> simp [h']),
      if_neg (by simpa using hf)]
    simp

/-- C2 witness: the amended behaviour at the concrete mismatched lists. -/
theorem c2_mismatch_amended_witness :
    load_word_lists [['a'], ['b']] [['c']] = ⟨[], true⟩
  ∧ (∀ files b, word_process_directory (some [['a'], ['b']]) (some [['c']]) files b
      false false = ⟨[], true, true⟩)
  ∧ (∀ rp rh, textgrid_main_exit true true true true true rp rh = 0)
  ∧ (∀ files b rp rh, files ≠ [] → (rp || rh) = true →
      (word_process_directory (some [['a'], ['b']]) (some [['c']]) files b rp
        rh).files_ops.length = files.length) :=
  c2_mismatch_amended [['a'], ['b']] [['c']] (by decide)

/-- C4 counterexample: the content whose single field value `est_ce_que`
holds two underscores is reported with a count of 1, not 2: the count is
the number of matches of the hyphen pattern (at most one per field), not
the number of characters replaced. -/
theorem c4_counterexample :
    (replace_hyphens_underscores (some (("text = \"est_ce_que\"").toList))
        true false).count = 1
  ∧ (replace_hyphens_underscores (some (("text = \"est_ce_que\"").toList))
        true false).count ≠ 2 := by
  refine ⟨by decide, by decide⟩

/-- C6 counterexample: on `text = "a(b)(c)"` only the first parenthesis
span of the value is removed (the pattern matches once per field), so the
result keeps the second span and the operation does not remove all `(...)`
spans found inside the quoted value. -/
theorem c6_counterexample :
    (remove_parentheses_content (some (("text = \"a(b)(c)\"").toList))
        true false).modified = ("text = \"a(c)\"").toList
  ∧ (remove_parentheses_content (some (("text = \"a(b)(c)\"").toList))
        true false).count = 1
  ∧ (remove_parentheses_content (some (("text = \"a(b)(c)\"").toList))
        true false).modified ≠ ("text = \"a\"").toList := by
  refine ⟨by decide, by decide, by decide⟩

/-- C7 counterexample: when two `text` fields share a line, the greedy
`.*` makes the single match of pattern 1 end at the last field, so the
first field's value `a.` — which ends in a word character followed by a
period before its closing quote — is left untransformed. -/
theorem c7_counterexample :
    (fix_space_before_dot (some (("text = \"a.\" text = \"b.\"").toList))
        true false).modified = ("text = \"a.\" text = \"b .\"").toList
  ∧ (fix_space_before_dot (some (("text = \"a.\" text = \"b.\"").toList))
        true false).modified ≠ ("text = \"a .\" text = \"b .\"").toList
  ∧ (fix_space_before_dot (some (("text = \"a.\" text = \"b.\"").toList))
        true false).total = 1 := by
  refine ⟨by decide, by decide, by decide⟩

/-! ## Helper lemmas about the matchers -/

theorem tw_dw_append (p : Char → Bool) (a : List Char) (b : Char) (t : List Char)
    (ha : ∀ c ∈ a, p c = true) (hb : p b = false) :
    (a ++ b :: t).takeWhile p = a ∧ (a ++ b :: t).dropWhile p = b :: t := by
  induction a with
  | nil => simp [List.takeWhile_cons, List.dropWhile_cons, hb]
  | cons x xs ih =>
    have hx : p x = true := ha x (by simp)
    have ih' := ih (fun c hc => ha c (by simp [hc]))
    simp [List.takeWhile_cons, List.dropWhile_cons, hx, ih'.1, ih'.2]

theorem takeValue_eval (v : List Char) (k : List Char) (hv : '"' ∉ v) :
    takeValue (v ++ '"' :: k) = some (v, k) := by
  have h := tw_dw_append (fun c => !(c = '"')) v '"' k
    (fun c hc => by simp; exact fun h' => hv (h' ▸ hc)) (by simp)
  rw [takeValue, h.2, h.1]
  rfl

theorem takeValue_some (cs v r : List Char) (h : takeValue cs = some (v, r)) :
    cs = v ++ '"' :: r ∧ '"' ∉ v := by
  rw [takeValue] at h
  split at h
  · rename_i r' heq
    rw [Option.some_inj, Prod.mk.injEq] at h
    obtain ⟨h1, h2⟩ := h
    constructor
    · conv_lhs => rw [← List.takeWhile_append_dropWhile (p := fun c => !(c = '"')) (l := cs)]
      rw [heq, h1, h2]
    · intro hvmem
      rw [← h1] at hvmem
      have := List.mem_takeWhile_imp hvmem
      simp at this
  · exact absurd h (by simp)

theorem dropLit_self (w k : List Char) : dropLit w (w ++ k) = some k := by
  induction w with
  | nil => rfl
  | cons c cs ih => simp [dropLit, ih]

theorem matchTE_field (ws1 ws2 : List Char) (r3 : List Char)
    (h1 : ∀ c ∈ ws1, isPySpace c = true) (h2 : ∀ c ∈ ws2, isPySpace c = true) :
    matchTE ('t' :: 'e' :: 'x' :: 't' :: (ws1 ++ '=' :: (ws2 ++ '"' :: r3))) =
      some ('t' :: 'e' :: 'x' :: 't' :: (ws1 ++ '=' :: (ws2 ++ ['"'])), r3) := by
  have ha := tw_dw_append isPySpace ws1 '=' (ws2 ++ '"' :: r3) h1 (by decide)
  have hb := tw_dw_append isPySpace ws2 '"' r3 h2 (by decide)
  simp only [matchTE, ha.1, ha.2, hb.1, hb.2]

theorem matchTE_some (cs p r : List Char) (h : matchTE cs = some (p, r)) :
    ∃ ws1 ws2, (∀ c ∈ ws1, isPySpace c = true) ∧ (∀ c ∈ ws2, isPySpace c = true) ∧
      p = 't' :: 'e' :: 'x' :: 't' :: (ws1 ++ '=' :: (ws2 ++ ['"'])) ∧
      cs = 't' :: 'e' :: 'x' :: 't' :: (ws1 ++ '=' :: (ws2 ++ '"' :: r)) := by
  rw [matchTE.eq_def] at h
  split at h
  case h_2 => exact absurd h (by simp)
  case h_1 rest =>
    split at h
    case h_2 => exact absurd h (by simp)
    case h_1 r2 hd1 =>
      split at h
      case h_2 => exact absurd h (by simp)
      case h_1 r3 hd2 =>
        rw [Option.some_inj] at h
        have hp := congrArg Prod.fst h
        have hr := congrArg Prod.snd h
        simp only at hp hr
        refine ⟨rest.takeWhile isPySpace, r2.takeWhile isPySpace,
          fun c hc => List.mem_takeWhile_imp hc, fun c hc => List.mem_takeWhile_imp hc,
          hp.symm, ?_⟩
        have e1 : rest = rest.takeWhile isPySpace ++ '=' :: r2 := by
          conv_lhs => rw [← List.takeWhile_append_dropWhile (p := isPySpace) (l := rest)]
          rw [hd1]
        have e2 : r2 = r2.takeWhile isPySpace ++ '"' :: r3 := by
          conv_lhs => rw [← List.takeWhile_append_dropWhile (p := isPySpace) (l := r2)]
          rw [hd2]
        rw [← hr]
        conv_lhs => rw [e1, e2]

theorem matchTE_head (c : Char) (cs : List Char) (hc : c ≠ 't') :
    matchTE (c :: cs) = none := by
  cases h : matchTE (c :: cs) with
  | none => rfl
  | some pr =>
    obtain ⟨ws1, ws2, _, _, _, hcs⟩ := matchTE_some _ pr.1 pr.2 (by rw [h])
    exact absurd (List.cons.injEq .. ▸ hcs).1 hc

theorem matchTE_two (c2 : Char) (cs : List Char) (hc : c2 ≠ 'e') :
    matchTE ('t' :: c2 :: cs) = none := by
  cases h : matchTE ('t' :: c2 :: cs) with
  | none => rfl
  | some pr =>
    obtain ⟨ws1, ws2, _, _, _, hcs⟩ := matchTE_some _ pr.1 pr.2 (by rw [h])
    simp only [List.cons.injEq] at hcs
    exact absurd hcs.2.1 hc

theorem startsWithL_append_self (pat t : List Char) :
    startsWithL pat (pat ++ t) = true := by
  induction pat with
  | nil => rfl
  | cons c cs ih => simp [startsWithL, ih]

theorem containsSeq_cons_self (pat s : List Char) (h : startsWithL pat s = true)
    (hs : s ≠ []) : containsSeq pat s = true := by
  cases s with
  | nil => exact absurd rfl hs
  | cons c cs => simp [containsSeq, h]

theorem containsSeq_tail (pat : List Char) (c : Char) (cs : List Char)
    (h : containsSeq pat cs = true) : containsSeq pat (c :: cs) = true := by
  simp [containsSeq, h]

theorem containsSeq_suffix_false (pat s s2 : List Char)
    (h : containsSeq pat s = false) (hs : ∃ s1, s = s1 ++ s2) :
    containsSeq pat s2 = false := by
  obtain ⟨s1, rfl⟩ := hs
  induction s1 with
  | nil => exact h
  | cons a s1' ih =>
    refine ih ?_
    have h' : (startsWithL pat ((a :: s1') ++ s2) || containsSeq pat (s1' ++ s2)) = false := h
    exact (Bool.or_eq_false_iff.mp h').2

theorem suffix_split (a b s2 : List Char) (h : ∃ s1, a ++ b = s1 ++ s2) :
    (∃ s1, b = s1 ++ s2) ∨ (∃ a2 s1, a = s1 ++ a2 ∧ a2 ≠ [] ∧ s2 = a2 ++ b) := by
  obtain ⟨s1, hs⟩ := h
  rcases List.append_eq_append_iff.mp hs with ⟨a', ha1, ha2⟩ | ⟨c', hc1, hc2⟩
  · exact Or.inl ⟨a', ha2⟩
  · cases c' with
    | nil => exact Or.inl ⟨[], by simpa using hc2.symm⟩
    | cons x xs => exact Or.inr ⟨x :: xs, s1, hc1, by simp, hc2⟩

theorem spaces_append_ne (ws1 : List Char) (h : ∀ c ∈ ws1, isPySpace c = true)
    (X k : List Char) : ws1 ++ '=' :: X ≠ 'e' :: k := by
  intro he
  cases ws1 with
  | nil => simp at he
  | cons w ws' =>
    simp only [List.cons_append, List.cons.injEq] at he
    have hw := h w (by simp)
    rw [he.1] at hw
    exact absurd hw (by decide)

theorem matchTE_none_of_nf (s k : List Char) (hs : containsSeq textTok s = false)
    (hne : s ≠ [])
    (hk : k = [] ∨ (∃ k', k = '"' :: k') ∨ (∃ k', k = 't' :: 'e' :: 'x' :: 't' :: k')) :
    matchTE (s ++ k) = none := by
  cases h : matchTE (s ++ k) with
  | none => rfl
  | some pr =>
    obtain ⟨ws1, ws2, hws1, hws2, _, hcs⟩ := matchTE_some _ pr.1 pr.2 (by rw [h])
    exfalso
    match s with
    | [] => exact hne rfl
    | [a] =>
      simp only [List.cons_append, List.nil_append, List.cons.injEq] at hcs
      rcases hk with rfl | ⟨k', rfl⟩ | ⟨k', rfl⟩
      · exact absurd hcs.2 (by simp)
      · simp at hcs
      · simp at hcs
    | [a, b] =>
      simp only [List.cons_append, List.nil_append, List.cons.injEq] at hcs
      rcases hk with rfl | ⟨k', rfl⟩ | ⟨k', rfl⟩
      · exact absurd hcs.2.2 (by simp)
      · simp at hcs
      · simp at hcs
    | [a, b, c] =>
      simp only [List.cons_append, List.nil_append, List.cons.injEq] at hcs
      rcases hk with rfl | ⟨k', rfl⟩ | ⟨k', rfl⟩
      · exact absurd hcs.2.2.2 (by simp)
      · simp at hcs
      · obtain ⟨-, -, -, htail⟩ := hcs
        injection htail.symm with _ htail2
        exact spaces_append_ne ws1 hws1 _ _ htail2
    | a :: b :: c :: d :: s4 =>
      simp only [List.cons_append, List.cons.injEq] at hcs
      obtain ⟨rfl, rfl, rfl, rfl, -⟩ := hcs
      have : containsSeq textTok ('t' :: 'e' :: 'x' :: 't' :: s4) = true :=
        containsSeq_cons_self _ _ (by simp [textTok, startsWithL]) (by simp)
      rw [this] at hs
      exact absurd hs (by simp)

/-! ## Generic scanner lemmas -/

theorem reSubF_nil {μ : Type} (out : μ → List Char)
    (m : List Char → Option (μ × List Char)) (f : Nat) : reSubF out m f [] = [] := by
  cases f <;> rfl

theorem reListF_nil {μ : Type} (m : List Char → Option (μ × List Char)) (f : Nat) :
    reListF m f [] = [] := by
  cases f <;> rfl

theorem reSubF_step_some {μ : Type} (out : μ → List Char) (m) (c : Char)
    (cs : List Char) (d : μ) (rest : List Char) (f : Nat)
    (h : m (c :: cs) = some (d, rest)) :
    reSubF out m (f + 1) (c :: cs) = out d ++ reSubF out m f rest := by
  simp only [reSubF, h]

theorem reSubF_step_none {μ : Type} (out : μ → List Char) (m) (c : Char)
    (cs : List Char) (f : Nat) (h : m (c :: cs) = none) :
    reSubF out m (f + 1) (c :: cs) = c :: reSubF out m f cs := by
  simp only [reSubF, h]

theorem reListF_step_some {μ : Type} (m : List Char → Option (μ × List Char))
    (c : Char) (cs : List Char) (d : μ)
    (rest : List Char) (f : Nat) (h : m (c :: cs) = some (d, rest)) :
    reListF m (f + 1) (c :: cs) = d :: reListF m f rest := by
  simp only [reListF, h]

theorem reListF_step_none {μ : Type} (m : List Char → Option (μ × List Char))
    (c : Char) (cs : List Char) (f : Nat) (h : m (c :: cs) = none) :
    reListF m (f + 1) (c :: cs) = reListF m f cs := by
  simp only [reListF, h]

theorem reSubF_skip {μ : Type} (out : μ → List Char) (m) (s k : List Char)
    (hm : ∀ s2, s2 ≠ [] → (∃ s1, s = s1 ++ s2) → m (s2 ++ k) = none) :
    ∀ f, (s ++ k).length ≤ f →
      reSubF out m f (s ++ k) = s ++ reSubF out m (f - s.length) k := by
  induction s with
  | nil => intro f _; simp
  | cons a s2 ih =>
    intro f hf
    cases f with
    | zero => simp at hf
    | succ f' =>
      have h0 : m ((a :: s2) ++ k) = none := hm (a :: s2) (by simp) ⟨[], rfl⟩
      rw [List.cons_append, reSubF_step_none out m a (s2 ++ k) f' h0]
      have hlen : (s2 ++ k).length ≤ f' := by
        simp only [List.cons_append, List.length_cons] at hf
        omega
      have ih' := ih (fun s3 h3 hsub => hm s3 h3
        (by obtain ⟨s1, hs1⟩ := hsub; exact ⟨a :: s1, by rw [List.cons_append, hs1]⟩))
        f' hlen
      rw [ih']
      simp [Nat.succ_sub_succ]

theorem reListF_skip {μ : Type} (m : List Char → Option (μ × List Char))
    (s k : List Char)
    (hm : ∀ s2, s2 ≠ [] → (∃ s1, s = s1 ++ s2) → m (s2 ++ k) = none) :
    ∀ f, (s ++ k).length ≤ f →
      reListF m f (s ++ k) = reListF m (f - s.length) k := by
  induction s with
  | nil => intro f _; simp
  | cons a s2 ih =>
    intro f hf
    cases f with
    | zero => simp at hf
    | succ f' =>
      have h0 : m ((a :: s2) ++ k) = none := hm (a :: s2) (by simp) ⟨[], rfl⟩
      rw [List.cons_append, reListF_step_none m a (s2 ++ k) f' h0]
      have hlen : (s2 ++ k).length ≤ f' := by
        simp only [List.cons_append, List.length_cons] at hf
        omega
      have ih' := ih (fun s3 h3 hsub => hm s3 h3
        (by obtain ⟨s1, hs1⟩ := hsub; exact ⟨a :: s1, by rw [List.cons_append, hs1]⟩))
        f' hlen
      rw [ih']
      simp [Nat.succ_sub_succ]

theorem isPySpace_ne_t (c : Char) (h : isPySpace c = true) : c ≠ 't' := by
  intro he
  rw [he] at h
  exact absurd h (by decide)

theorem isPySpace_ne_e (c : Char) (h : isPySpace c = true) : c ≠ 'e' := by
  intro he
  rw [he] at h
  exact absurd h (by decide)

theorem suffix_cons_cases (c : Char) (l s2 : List Char) (h : ∃ s1, c :: l = s1 ++ s2)
    (hne : s2 ≠ []) : s2 = c :: l ∨ ∃ s1, l = s1 ++ s2 := by
  obtain ⟨s1, hs⟩ := h
  cases s1 with
  | nil => exact Or.inl (by simpa using hs.symm)
  | cons x xs =>
    refine Or.inr ⟨xs, ?_⟩
    injection hs with _ h2

theorem matchTE_none_in_A (ws1 ws2 : List Char)
    (h1 : ∀ c ∈ ws1, isPySpace c = true) (h2 : ∀ c ∈ ws2, isPySpace c = true)
    (a2 rest : List Char) (hne : a2 ≠ [])
    (hsub : ∃ s1, 'e' :: 'x' :: 't' :: (ws1 ++ '=' :: (ws2 ++ ['"'])) = s1 ++ a2) :
    matchTE (a2 ++ rest) = none := by
  rcases suffix_cons_cases _ _ _ hsub hne with rfl | hsub
  · exact matchTE_head 'e' _ (by decide)
  rcases suffix_cons_cases _ _ _ hsub hne with rfl | hsub
  · exact matchTE_head 'x' _ (by decide)
  rcases suffix_cons_cases _ _ _ hsub hne with rfl | hsub
  · -- a2 = 't' :: (ws1 ++ '=' :: (ws2 ++ ['"']))
    cases ws1 with
    | nil =>
      simp only [List.nil_append, List.cons_append]
      exact matchTE_two '=' _ (by decide)
    | cons w ws1' =>
      simp only [List.cons_append]
      exact matchTE_two w _ (isPySpace_ne_e w (h1 w (by simp)))
  rcases suffix_split ws1 _ a2 hsub with hsub | ⟨a3, s1, hws, ha3, rfl⟩
  · rcases suffix_cons_cases _ _ _ hsub hne with rfl | hsub
    · exact matchTE_head '=' _ (by decide)
    rcases suffix_split ws2 _ a2 hsub with hsub | ⟨a4, s1, hws2, ha4, rfl⟩
    · obtain ⟨s1, hs1⟩ := hsub
      have ha2 : a2 = ['"'] := by
        cases s1 with
        | nil => exact hs1.symm
        | cons x xs =>
          exfalso
          injection hs1 with _ h2
          have h3 := List.append_eq_nil.mp h2.symm
          exact hne h3.2
      rw [ha2]
      exact matchTE_head '"' _ (by decide)
    · cases a4 with
      | nil => exact absurd rfl ha4
      | cons y ys =>
        rw [List.cons_append]
        refine matchTE_head y _ (isPySpace_ne_t y (h2 y ?_))
        rw [hws2]
        simp
  · cases a3 with
    | nil => exact absurd rfl ha3
    | cons y ys =>
      rw [List.cons_append]
      refine matchTE_head y _ (isPySpace_ne_t y (h1 y ?_))
      rw [hws]
      simp

theorem matchTE_none_fld_tail (fl : Fld) (hok : okFld fl) (k : List Char)
    (s2 : List Char) (hne : s2 ≠ [])
    (hsub : ∃ s1, ('e' :: 'x' :: 't' :: (fl.ws1 ++ '=' :: (fl.ws2 ++ ['"']))) ++ fl.v
      = s1 ++ s2) :
    matchTE (s2 ++ '"' :: k) = none := by
  rcases suffix_split _ fl.v s2 hsub with hsubv | ⟨a2, s1, h5, ha2, rfl⟩
  · exact matchTE_none_of_nf s2 ('"' :: k)
      (containsSeq_suffix_false _ _ _ hok.2.2.2 hsubv) hne (Or.inr (Or.inl ⟨k, rfl⟩))
  · rw [List.append_assoc]
    exact matchTE_none_in_A fl.ws1 fl.ws2 hok.1 hok.2.1 a2 (fl.v ++ '"' :: k) ha2 ⟨s1, h5⟩

theorem reSubF_skip_fld {μ : Type} (out : μ → List Char)
    (m : List Char → Option (μ × List Char))
    (hTE : ∀ cs, matchTE cs = none → m cs = none)
    (fl : Fld) (k : List Char) (hok : okFld fl)
    (hm0 : m (fldChars fl ++ k) = none) :
    ∀ f, (fldChars fl ++ k).length ≤ f →
      reSubF out m f (fldChars fl ++ k) =
        fldChars fl ++ reSubF out m (f - (fldChars fl).length) k := by
  intro f hf
  have hshape : fldChars fl ++ k =
      't' :: ((('e' :: 'x' :: 't' :: (fl.ws1 ++ '=' :: (fl.ws2 ++ ['"']))) ++ fl.v)
        ++ '"' :: k) := by
    simp [fldChars, tePrefix]
  have hlenfld : (fldChars fl).length =
      (('e' :: 'x' :: 't' :: (fl.ws1 ++ '=' :: (fl.ws2 ++ ['"']))) ++ fl.v).length + 2 := by
    simp [fldChars, tePrefix]
    omega
  cases f with
  | zero =>
    exfalso
    rw [hshape] at hf
    simp at hf
  | succ f' =>
    rw [hshape] at hm0 hf ⊢
    rw [reSubF_step_none out m _ _ f' hm0]
    have hsuf : ∀ s2, s2 ≠ [] →
        (∃ s1, ('e' :: 'x' :: 't' :: (fl.ws1 ++ '=' :: (fl.ws2 ++ ['"']))) ++ fl.v
          = s1 ++ s2) →
        m (s2 ++ '"' :: k) = none :=
      fun s2 h2 hsub => hTE _ (matchTE_none_fld_tail fl hok k s2 h2 hsub)
    have hflen :
        ((('e' :: 'x' :: 't' :: (fl.ws1 ++ '=' :: (fl.ws2 ++ ['"']))) ++ fl.v)
          ++ '"' :: k).length ≤ f' := by
      simp only [List.length_cons] at hf
      omega
    rw [reSubF_skip out m _ ('"' :: k) hsuf f' hflen]
    obtain ⟨g, hg⟩ : ∃ g,
        f' - (('e' :: 'x' :: 't' :: (fl.ws1 ++ '=' :: (fl.ws2 ++ ['"']))) ++ fl.v).length
          = g + 1 := by
      refine ⟨f' -
        (('e' :: 'x' :: 't' :: (fl.ws1 ++ '=' :: (fl.ws2 ++ ['"']))) ++ fl.v).length
        - 1, ?_⟩
      simp only [List.length_cons, List.length_append] at hflen ⊢
      omega
    rw [hg]
    rw [reSubF_step_none out m '"' k g (hTE _ (matchTE_head '"' k (by decide)))]
    have hg2 : f' + 1 - (fldChars fl).length = g := by
      rw [hlenfld]
      omega
    rw [hg2]
    simp [fldChars, tePrefix]

theorem reListF_skip_fld {μ : Type} (m : List Char → Option (μ × List Char))
    (hTE : ∀ cs, matchTE cs = none → m cs = none)
    (fl : Fld) (k : List Char) (hok : okFld fl)
    (hm0 : m (fldChars fl ++ k) = none) :
    ∀ f, (fldChars fl ++ k).length ≤ f →
      reListF m f (fldChars fl ++ k) = reListF m (f - (fldChars fl).length) k := by
  intro f hf
  have hshape : fldChars fl ++ k =
      't' :: ((('e' :: 'x' :: 't' :: (fl.ws1 ++ '=' :: (fl.ws2 ++ ['"']))) ++ fl.v)
        ++ '"' :: k) := by
    simp [fldChars, tePrefix]
  have hlenfld : (fldChars fl).length =
      (('e' :: 'x' :: 't' :: (fl.ws1 ++ '=' :: (fl.ws2 ++ ['"']))) ++ fl.v).length + 2 := by
    simp [fldChars, tePrefix]
    omega
  cases f with
  | zero =>
    exfalso
    rw [hshape] at hf
    simp at hf
  | succ f' =>
    rw [hshape] at hm0 hf ⊢
    rw [reListF_step_none m _ _ f' hm0]
    have hsuf : ∀ s2, s2 ≠ [] →
        (∃ s1, ('e' :: 'x' :: 't' :: (fl.ws1 ++ '=' :: (fl.ws2 ++ ['"']))) ++ fl.v
          = s1 ++ s2) →
        m (s2 ++ '"' :: k) = none :=
      fun s2 h2 hsub => hTE _ (matchTE_none_fld_tail fl hok k s2 h2 hsub)
    have hflen :
        ((('e' :: 'x' :: 't' :: (fl.ws1 ++ '=' :: (fl.ws2 ++ ['"']))) ++ fl.v)
          ++ '"' :: k).length ≤ f' := by
      simp only [List.length_cons] at hf
      omega
    rw [reListF_skip m _ ('"' :: k) hsuf f' hflen]
    obtain ⟨g, hg⟩ : ∃ g,
        f' - (('e' :: 'x' :: 't' :: (fl.ws1 ++ '=' :: (fl.ws2 ++ ['"']))) ++ fl.v).length
          = g + 1 := by
      refine ⟨f' -
        (('e' :: 'x' :: 't' :: (fl.ws1 ++ '=' :: (fl.ws2 ++ ['"']))) ++ fl.v).length
        - 1, ?_⟩
      simp only [List.length_cons, List.length_append] at hflen ⊢
      omega
    rw [hg]
    rw [reListF_step_none m '"' k g (hTE _ (matchTE_head '"' k (by decide)))]
    have hg2 : f' + 1 - (fldChars fl).length = g := by
      rw [hlenfld]
      omega
    rw [hg2]

theorem mkTG_cons (r0 : List Char) (fl : Fld) (r : List Char) (fs) :
    mkTG r0 ((fl, r) :: fs) = r0 ++ (fldChars fl ++ mkTG r fs) := rfl

theorem fld_head_t (fl : Fld) (X : List Char) :
    ∃ Z, fldChars fl ++ X = 't' :: 'e' :: 'x' :: 't' :: Z := by
  refine ⟨(fl.ws1 ++ '=' :: (fl.ws2 ++ ['"'])) ++ ((fl.v ++ ['"']) ++ X), ?_⟩
  simp [fldChars, tePrefix]

theorem reSubF_mkTG {μ : Type} (out : μ → List Char)
    (m : List Char → Option (μ × List Char))
    (hTE : ∀ cs, matchTE cs = none → m cs = none)
    (G : Fld → Option μ) (T : Fld → Fld)
    (PP : List (Fld × List Char) → Prop)
    (hPPtail : ∀ p fs, PP (p :: fs) → PP fs)
    (hfld : ∀ fl r fs', okFld fl → PP ((fl, r) :: fs') →
      (G fl = none → m (fldChars fl ++ mkTG r fs') = none ∧ T fl = fl) ∧
      (∀ d, G fl = some d → m (fldChars fl ++ mkTG r fs') = some (d, mkTG r fs') ∧
        out d = fldChars (T fl))) :
    ∀ fs r0 f, okTG r0 fs → PP fs → (mkTG r0 fs).length ≤ f →
      reSubF out m f (mkTG r0 fs) = mkTG r0 (fs.map (fun p => (T p.1, p.2))) := by
  intro fs
  induction fs with
  | nil =>
    intro r0 f hok _ hf
    show reSubF out m f r0 = r0
    have h1 : reSubF out m f (r0 ++ []) = r0 ++ reSubF out m (f - r0.length) [] :=
      reSubF_skip out m r0 []
        (fun s2 h2 hsub => hTE _ (matchTE_none_of_nf s2 []
          (containsSeq_suffix_false _ _ _ hok.1.2 hsub) h2 (Or.inl rfl)))
        f (by simpa using hf)
    rw [List.append_nil] at h1
    rw [h1, reSubF_nil, List.append_nil]
  | cons p fs' ih =>
    obtain ⟨fl, r⟩ := p
    intro r0 f hok hpp hf
    have hfl : okFld fl := (hok.2 (fl, r) (by simp)).1
    have hokr : okTG r fs' :=
      ⟨(hok.2 (fl, r) (by simp)).2, fun q hq => hok.2 q (by simp [hq])⟩
    rw [mkTG_cons] at hf ⊢
    have hrhs : mkTG r0 (((fl, r) :: fs').map (fun p => (T p.1, p.2))) =
        r0 ++ (fldChars (T fl) ++ mkTG r (fs'.map (fun p => (T p.1, p.2)))) := rfl
    rw [hrhs]
    -- skip the leading raw segment
    have hskip : reSubF out m f (r0 ++ (fldChars fl ++ mkTG r fs')) =
        r0 ++ reSubF out m (f - r0.length) (fldChars fl ++ mkTG r fs') := by
      refine reSubF_skip out m r0 _ (fun s2 h2 hsub => hTE _ ?_) f hf
      obtain ⟨Z, hZ⟩ := fld_head_t fl (mkTG r fs')
      rw [hZ]
      exact matchTE_none_of_nf s2 _ (containsSeq_suffix_false _ _ _ hok.1.2 hsub) h2
        (Or.inr (Or.inr ⟨Z, rfl⟩))
    rw [hskip]
    have hlen1 : (fldChars fl ++ mkTG r fs').length ≤ f - r0.length := by
      simp only [List.length_append] at hf ⊢
      omega
    cases hG : G fl with
    | none =>
      obtain ⟨hm0, hT⟩ := ((hfld fl r fs' hfl hpp).1 hG)
      rw [reSubF_skip_fld out m hTE fl (mkTG r fs') hfl hm0 (f - r0.length) hlen1]
      rw [ih r (f - r0.length - (fldChars fl).length) hokr (hPPtail _ _ hpp)
        (by simp only [List.length_append] at hlen1 ⊢; omega), hT]
    | some d =>
      obtain ⟨hm0, hout⟩ := (hfld fl r fs' hfl hpp).2 d hG
      obtain ⟨Z, hZ⟩ := fld_head_t fl (mkTG r fs')
      obtain ⟨g, hg⟩ : ∃ g, f - r0.length = g + 1 := by
        refine ⟨f - r0.length - 1, ?_⟩
        rw [hZ] at hlen1
        simp only [List.length_cons] at hlen1
        omega
      rw [hZ] at hm0 ⊢
      rw [hg, reSubF_step_some out m _ _ d (mkTG r fs') g hm0]
      have hglen : (mkTG r fs').length ≤ g := by
        rw [hZ] at hlen1
        simp only [List.length_cons] at hlen1
        have hZlen : (fldChars fl ++ mkTG r fs').length =
            ('t' :: 'e' :: 'x' :: 't' :: Z).length := by rw [hZ]
        have hcpos : 0 < (fldChars fl).length := by simp [fldChars, tePrefix]
        simp only [List.length_append, List.length_cons] at hZlen
        omega
      rw [ih r g hokr (hPPtail _ _ hpp) hglen, hout]

theorem reListF_mkTG {μ : Type} (m : List Char → Option (μ × List Char))
    (hTE : ∀ cs, matchTE cs = none → m cs = none)
    (G : Fld → Option μ)
    (PP : List (Fld × List Char) → Prop)
    (hPPtail : ∀ p fs, PP (p :: fs) → PP fs)
    (hfld : ∀ fl r fs', okFld fl → PP ((fl, r) :: fs') →
      (G fl = none → m (fldChars fl ++ mkTG r fs') = none) ∧
      (∀ d, G fl = some d → m (fldChars fl ++ mkTG r fs') = some (d, mkTG r fs'))) :
    ∀ fs r0 f, okTG r0 fs → PP fs → (mkTG r0 fs).length ≤ f →
      reListF m f (mkTG r0 fs) = fs.filterMap (fun p => G p.1) := by
  intro fs
  induction fs with
  | nil =>
    intro r0 f hok _ hf
    show reListF m f r0 = []
    have h1 : reListF m f (r0 ++ []) = reListF m (f - r0.length) [] :=
      reListF_skip m r0 []
        (fun s2 h2 hsub => hTE _ (matchTE_none_of_nf s2 []
          (containsSeq_suffix_false _ _ _ hok.1.2 hsub) h2 (Or.inl rfl)))
        f (by simpa using hf)
    rw [List.append_nil] at h1
    rw [h1, reListF_nil]
  | cons p fs' ih =>
    obtain ⟨fl, r⟩ := p
    intro r0 f hok hpp hf
    have hfl : okFld fl := (hok.2 (fl, r) (by simp)).1
    have hokr : okTG r fs' :=
      ⟨(hok.2 (fl, r) (by simp)).2, fun q hq => hok.2 q (by simp [hq])⟩
    rw [mkTG_cons] at hf ⊢
    have hskip : reListF m f (r0 ++ (fldChars fl ++ mkTG r fs')) =
        reListF m (f - r0.length) (fldChars fl ++ mkTG r fs') := by
      refine reListF_skip m r0 _ (fun s2 h2 hsub => hTE _ ?_) f hf
      obtain ⟨Z, hZ⟩ := fld_head_t fl (mkTG r fs')
      rw [hZ]
      exact matchTE_none_of_nf s2 _ (containsSeq_suffix_false _ _ _ hok.1.2 hsub) h2
        (Or.inr (Or.inr ⟨Z, rfl⟩))
    rw [hskip]
    have hlen1 : (fldChars fl ++ mkTG r fs').length ≤ f - r0.length := by
      simp only [List.length_append] at hf ⊢
      omega
    cases hG : G fl with
    | none =>
      have hm0 := ((hfld fl r fs' hfl hpp).1 hG)
      rw [reListF_skip_fld m hTE fl (mkTG r fs') hfl hm0 (f - r0.length) hlen1]
      rw [ih r (f - r0.length - (fldChars fl).length) hokr (hPPtail _ _ hpp)
        (by simp only [List.length_append] at hlen1 ⊢; omega)]
      simp [hG]
    | some d =>
      have hm0 := (hfld fl r fs' hfl hpp).2 d hG
      obtain ⟨Z, hZ⟩ := fld_head_t fl (mkTG r fs')
      obtain ⟨g, hg⟩ : ∃ g, f - r0.length = g + 1 := by
        refine ⟨f - r0.length - 1, ?_⟩
        rw [hZ] at hlen1
        simp only [List.length_cons] at hlen1
        omega
      rw [hZ] at hm0 ⊢
      rw [hg, reListF_step_some m _ _ d (mkTG r fs') g hm0]
      have hglen : (mkTG r fs').length ≤ g := by
        rw [hZ] at hlen1
        simp only [List.length_cons] at hlen1
        have hZlen : (fldChars fl ++ mkTG r fs').length =
            ('t' :: 'e' :: 'x' :: 't' :: Z).length := by rw [hZ]
        have hcpos : 0 < (fldChars fl).length := by simp [fldChars, tePrefix]
        simp only [List.length_append, List.length_cons] at hZlen
        omega
      rw [ih r g hokr (hPPtail _ _ hpp) hglen]
      simp [hG]

/-! ## Field-head behaviour of each operation's matcher -/

theorem caseM_te (cs : List Char) (h : matchTE cs = none) : caseM cs = none := by
  simp only [caseM, h]

theorem wordM_te (w : List Char) (cs : List Char) (h : matchTE cs = none) :
    wordM w cs = none := by
  simp only [wordM, h]

theorem parenM_te (cs : List Char) (h : matchTE cs = none) : parenM cs = none := by
  simp only [parenM, h]

theorem hyphenM_te (cs : List Char) (h : matchTE cs = none) : hyphenM cs = none := by
  simp only [hyphenM, h]

theorem p1M_te (cs : List Char) (h : matchTE cs = none) : p1M cs = none := by
  simp only [p1M, h]

theorem p2M_te (cs : List Char) (h : matchTE cs = none) : p2M cs = none := by
  simp only [p2M, h]

theorem matchTE_fld (fl : Fld) (k : List Char) (hok : okFld fl) :
    matchTE (fldChars fl ++ k) = some (tePrefix fl.ws1 fl.ws2, fl.v ++ '"' :: k) := by
  have hshape : fldChars fl ++ k =
      't' :: 'e' :: 'x' :: 't' :: (fl.ws1 ++ '=' :: (fl.ws2 ++ '"' :: (fl.v ++ '"' :: k))) := by
    simp [fldChars, tePrefix]
  rw [hshape, matchTE_field fl.ws1 fl.ws2 (fl.v ++ '"' :: k) hok.1 hok.2.1]
  rfl

theorem caseM_fld (fl : Fld) (k : List Char) (hok : okFld fl) :
    caseM (fldChars fl ++ k) = some ((tePrefix fl.ws1 fl.ws2, fl.v), k) := by
  simp only [caseM, matchTE_fld fl k hok, takeValue_eval fl.v k hok.2.2.1]

theorem dropLit_quote_ne (w v k : List Char) (hv : '"' ∉ v) (hw : '"' ∉ w)
    (hne : v ≠ w) :
    dropLit w (v ++ '"' :: k) = none ∨
      ∃ c r, dropLit w (v ++ '"' :: k) = some (c :: r) ∧ c ≠ '"' := by
  induction w generalizing v with
  | nil =>
    cases v with
    | nil => exact absurd rfl hne
    | cons c v' =>
      refine Or.inr ⟨c, v' ++ '"' :: k, rfl, ?_⟩
      intro hc
      subst hc
      exact hv (by simp)
  | cons p ps ih =>
    cases v with
    | nil =>
      left
      show (if p = '"' then dropLit ps k else none) = none
      rw [if_neg (fun hc => hw (by rw [← hc]; simp))]
    | cons c v' =>
      have hred : dropLit (p :: ps) ((c :: v') ++ '"' :: k) =
          if p = c then dropLit ps (v' ++ '"' :: k) else none := rfl
      rw [hred]
      by_cases hpc : p = c
      · simp only [if_pos hpc]
        refine ih v' (fun hm => hv (by simp [hm])) (fun hm => hw (by simp [hm])) ?_
        intro hveq
        exact hne (by rw [hveq, hpc])
      · simp only [if_neg hpc]
        exact Or.inl trivial

theorem wordM_fld (w : List Char) (fl : Fld) (k : List Char) (hok : okFld fl)
    (hw : '"' ∉ w) :
    wordM w (fldChars fl ++ k) =
      if fl.v = w then some (tePrefix fl.ws1 fl.ws2, k) else none := by
  simp only [wordM, matchTE_fld fl k hok]
  by_cases hv : fl.v = w
  · rw [if_pos hv, hv]
    simp only [dropLit_self]
  · rw [if_neg hv]
    rcases dropLit_quote_ne w fl.v k hok.2.2.1 hw hv with hd | ⟨c, r, hd, hc⟩
    · simp only [hd]
    · simp only [hd]
      split
      · rename_i heq
        injection heq with heq2
        injection heq2 with hc2 _
        exact absurd hc2 hc
      · rfl

theorem hyphenM_fld (fl : Fld) (k : List Char) (hok : okFld fl) :
    hyphenM (fldChars fl ++ k) =
      match splitLastHU fl.v with
      | some (b, a) => some ((tePrefix fl.ws1 fl.ws2 ++ b, a ++ ['"']), k)
      | none => none := by
  simp only [hyphenM, matchTE_fld fl k hok, takeValue_eval fl.v k hok.2.2.1]

theorem dropWhile_nil_of_all (p : Char → Bool) (l : List Char)
    (h : ∀ c ∈ l, p c = true) : l.dropWhile p = [] := by
  induction l with
  | nil => rfl
  | cons c l' ih =>
    rw [List.dropWhile_cons, if_pos (h c (by simp))]
    exact ih (fun d hd => h d (by simp [hd]))

theorem split_firstF (p : Char → Bool) (v : List Char)
    (hx : ¬ (∀ c ∈ v, p c = true)) :
    ∃ a c0 b, v = a ++ c0 :: b ∧ (∀ c ∈ a, p c = true) ∧ p c0 = false := by
  induction v with
  | nil => exact absurd (by simp) hx
  | cons c v' ih =>
    cases hpc : p c with
    | false => exact ⟨[], c, v', rfl, by simp, hpc⟩
    | true =>
      have hx' : ¬ (∀ c ∈ v', p c = true) := by
        intro hall
        refine hx (fun d hd => ?_)
        rcases List.mem_cons.mp hd with rfl | hd'
        · exact hpc
        · exact hall d hd'
      obtain ⟨a, c0, b, hv, ha, hc0⟩ := ih hx'
      refine ⟨c :: a, c0, b, by rw [hv]; rfl, ?_, hc0⟩
      intro d hd
      rcases List.mem_cons.mp hd with rfl | hd'
      · exact hpc
      · exact ha d hd'

theorem parenM_fld (fl : Fld) (k : List Char) (hok : okFld fl)
    (hpv : parenOKv fl.v) :
    parenM (fldChars fl ++ k) =
      match parenSplit fl.v with
      | some (a, d) => some ((tePrefix fl.ws1 fl.ws2 ++ a, d ++ ['"']), k)
      | none => none := by
  have hq : '"' ∉ fl.v := hok.2.2.1
  by_cases hparen : '(' ∈ fl.v
  · -- the value holds a '(': split at the first one
    obtain ⟨a, c0, b, hv, ha, hc0⟩ :=
      split_firstF (fun c => !(c = '"') && !(c = '(')) fl.v
        (by
          intro hall
          have := hall '(' hparen
          simp at this)
    have hc0' : c0 = '(' := by
      have hc0v : c0 ∈ fl.v := by rw [hv]; simp
      simp only [Bool.and_eq_false_iff, Bool.not_eq_false'] at hc0
      rcases hc0 with h | h
      · exact absurd ((by simpa using h : c0 = '"') ▸ hc0v) hq
      · simpa using h
    subst hc0'
    have htw := tw_dw_append (fun c => !(c = '"') && !(c = '(')) a '(' b ha (by decide)
    have hbv : ∀ c ∈ b, c ∈ fl.v := by
      intro c hc
      rw [hv]
      simp [hc]
    have hsplit : parenSplit fl.v =
        match b.dropWhile (fun c => !(c = ')')) with
        | ')' :: r2 => some (a, r2)
        | _ => none := by
      rw [parenSplit, hv, htw.2, htw.1]
      rfl
    by_cases hrp : ')' ∈ b
    · obtain ⟨b1, c1, b2, hb, hb1, hc1⟩ :=
        split_firstF (fun c => !(c = ')')) b
          (by
            intro hall
            have := hall ')' hrp
            simp at this)
      have hc1' : c1 = ')' := by simpa using hc1
      subst hc1'
      have htwb := tw_dw_append (fun c => !(c = ')')) b1 ')' b2 hb1 (by decide)
      have hfield : (fl.v ++ '"' :: k) = a ++ '(' :: (b1 ++ ')' :: (b2 ++ '"' :: k)) := by
        rw [hv, hb]
        simp
      have htwf := tw_dw_append (fun c => !(c = '"') && !(c = '(')) a '('
        (b1 ++ ')' :: (b2 ++ '"' :: k)) ha (by decide)
      have htwb2 := tw_dw_append (fun c => !(c = ')')) b1 ')' (b2 ++ '"' :: k) hb1
        (by decide)
      simp only [parenM, matchTE_fld fl k hok, hfield, htwf.1, htwf.2, htwb2.2]
      rw [takeValue_eval b2 k (fun hmem => hq (hbv '"' (by rw [hb]; simp [hmem])))]
      rw [hsplit, hb, htwb.2]
      rfl
    · -- no ')' inside the value: excluded by `parenOKv`
      exfalso
      have hps : parenSplit fl.v = none := by
        rw [hsplit, dropWhile_nil_of_all _ b
          (fun c hc => by
            have hcne : c ≠ ')' := fun hcc => hrp (hcc ▸ hc)
            simp [hcne])]
      have := hpv hparen
      rw [hps] at this
      simp at this
  · -- no '(' in the value: neither the matcher nor `parenSplit` fires
    have hall : ∀ c ∈ fl.v, (fun c => !(c = '"') && !(c = '(')) c = true := by
      intro c hc
      have h1 : c ≠ '"' := fun hcc => hq (hcc ▸ hc)
      have h2 : c ≠ '(' := fun hcc => hparen (hcc ▸ hc)
      simp [h1, h2]
    have htwf := tw_dw_append (fun c => !(c = '"') && !(c = '(')) fl.v '"' k hall
      (by decide)
    have hps : parenSplit fl.v = none := by
      rw [parenSplit, dropWhile_nil_of_all _ fl.v hall]
    simp only [parenM, matchTE_fld fl k hok, htwf.2, hps]
    rfl

/-! ## Per-field characterizations on structured contents -/

theorem filterMap_const_some_map {α β γ : Type} (g : α → β) (h : β → γ) (l : List α) :
    ((l.filterMap (fun a => some (g a))).map h) = l.map (fun a => h (g a)) := by
  induction l with
  | nil => rfl
  | cons x xs ih => simp [List.filterMap_cons, ih]

theorem filterMap_ite_length {α β : Type} (P : α → Prop) [DecidablePred P]
    (g : α → β) (l : List α) :
    (l.filterMap (fun a => if P a then some (g a) else none)).length =
      l.countP (fun a => decide (P a)) := by
  induction l with
  | nil => rfl
  | cons x xs ih =>
    by_cases hx : P x
    · simp [List.filterMap_cons, List.countP_cons, hx, ih]
    · simp [List.filterMap_cons, List.countP_cons, hx, ih]

theorem convert_case_sub_mkTG (low : Bool) (r0 : List Char)
    (fs : List (Fld × List Char)) (hok : okTG r0 fs) :
    convert_case_sub low (mkTG r0 fs) = mkTG r0 (mapVals (caseValueOut low) fs) := by
  rw [convert_case_sub]
  have h := reSubF_mkTG (caseOut low) caseM caseM_te
    (fun fl => some (tePrefix fl.ws1 fl.ws2, fl.v))
    (fun fl => ⟨fl.ws1, fl.ws2, caseValueOut low fl.v⟩)
    (fun _ => True) (fun _ _ _ => trivial)
    ?_ fs r0 (mkTG r0 fs).length hok trivial le_rfl
  · rw [h]
    rfl
  · intro fl r fs' hfl _
    refine ⟨fun hG => absurd hG (by simp), fun d hd => ?_⟩
    rw [Option.some_inj] at hd
    subst hd
    refine ⟨caseM_fld fl (mkTG r fs') hfl, ?_⟩
    show caseOut low (tePrefix fl.ws1 fl.ws2, fl.v) =
      fldChars ⟨fl.ws1, fl.ws2, caseValueOut low fl.v⟩
    simp only [caseOut, caseValueOut]
    by_cases hch : caseTransform low fl.v ≠ fl.v
    · rw [if_pos hch, if_pos hch]
      simp [fldChars, tePrefix]
    · rw [if_neg hch, if_neg hch]
      simp [fldChars, tePrefix]

theorem caseValues_mkTG (r0 : List Char) (fs : List (Fld × List Char))
    (hok : okTG r0 fs) :
    caseValues (mkTG r0 fs) = fs.map (fun p => p.1.v) := by
  rw [caseValues]
  have h := reListF_mkTG caseM caseM_te
    (fun fl => some (tePrefix fl.ws1 fl.ws2, fl.v))
    (fun _ => True) (fun _ _ _ => trivial)
    ?_ fs r0 (mkTG r0 fs).length hok trivial le_rfl
  · rw [h]
    exact filterMap_const_some_map _ _ fs
  · intro fl r fs' hfl _
    exact ⟨fun hG => absurd hG (by simp),
      fun d hd => by rw [Option.some_inj] at hd; subst hd; exact caseM_fld fl _ hfl⟩

theorem word_pass_mkTG (w c : List Char) (r0 : List Char)
    (fs : List (Fld × List Char)) (hok : okTG r0 fs) (hw : '"' ∉ w) :
    word_pass w c (mkTG r0 fs) = mkTG r0 (mapVals (wordValueOut w c) fs) := by
  rw [word_pass]
  have h := reSubF_mkTG (wordOut c) (wordM w) (wordM_te w)
    (fun fl => if fl.v = w then some (tePrefix fl.ws1 fl.ws2) else none)
    (fun fl => ⟨fl.ws1, fl.ws2, wordValueOut w c fl.v⟩)
    (fun _ => True) (fun _ _ _ => trivial)
    ?_ fs r0 (mkTG r0 fs).length hok trivial le_rfl
  · rw [h]
    rfl
  · intro fl r fs' hfl _
    by_cases hv : fl.v = w
    · refine ⟨fun hG => absurd hG (by simp [hv]), fun d hd => ?_⟩
      simp only [hv, if_pos, Option.some_inj] at hd
      subst hd
      refine ⟨by rw [wordM_fld w fl _ hfl hw, if_pos hv], ?_⟩
      show wordOut c (tePrefix fl.ws1 fl.ws2) =
        fldChars ⟨fl.ws1, fl.ws2, wordValueOut w c fl.v⟩
      rw [wordOut, wordValueOut, if_pos hv]
      simp [fldChars, tePrefix]
    · refine ⟨fun _ => ⟨by rw [wordM_fld w fl _ hfl hw, if_neg hv], ?_⟩,
        fun d hd => by simp [hv] at hd⟩
      show (⟨fl.ws1, fl.ws2, wordValueOut w c fl.v⟩ : Fld) = fl
      rw [wordValueOut, if_neg hv]

theorem word_count_mkTG (w : List Char) (r0 : List Char)
    (fs : List (Fld × List Char)) (hok : okTG r0 fs) (hw : '"' ∉ w) :
    word_count w (mkTG r0 fs) = fs.countP (fun p => decide (p.1.v = w)) := by
  rw [word_count]
  have h := reListF_mkTG (wordM w) (wordM_te w)
    (fun fl => if fl.v = w then some (tePrefix fl.ws1 fl.ws2) else none)
    (fun _ => True) (fun _ _ _ => trivial)
    ?_ fs r0 (mkTG r0 fs).length hok trivial le_rfl
  · rw [h]
    exact filterMap_ite_length _ _ fs
  · intro fl r fs' hfl _
    by_cases hv : fl.v = w
    · refine ⟨fun hG => absurd hG (by simp [hv]), fun d hd => ?_⟩
      simp only [hv, if_pos, Option.some_inj] at hd
      subst hd
      rw [wordM_fld w fl _ hfl hw, if_pos hv]
    · exact ⟨fun _ => by rw [wordM_fld w fl _ hfl hw, if_neg hv],
        fun d hd => by simp [hv] at hd⟩

theorem filterMap_map_length {α β γ : Type} (h : α → Option β) (g : α → β → γ)
    (l : List α) :
    (l.filterMap (fun a => (h a).map (g a))).length =
      l.countP (fun a => (h a).isSome) := by
  induction l with
  | nil => rfl
  | cons x xs ih =>
    cases hx : h x with
    | none => simp [List.filterMap_cons, List.countP_cons, hx, ih]
    | some b => simp [List.filterMap_cons, List.countP_cons, hx, ih]

theorem paren_sub_mkTG (r0 : List Char) (fs : List (Fld × List Char))
    (hok : okTG r0 fs) (hpp : ∀ p ∈ fs, parenOKv p.1.v) :
    reSubF parenOut parenM (mkTG r0 fs).length (mkTG r0 fs) =
      mkTG r0 (mapVals parenValueOut fs) := by
  have h := reSubF_mkTG parenOut parenM parenM_te
    (fun fl => (parenSplit fl.v).map
      (fun ad => (tePrefix fl.ws1 fl.ws2 ++ ad.1, ad.2 ++ ['"'])))
    (fun fl => ⟨fl.ws1, fl.ws2, parenValueOut fl.v⟩)
    (fun fs => ∀ p ∈ fs, parenOKv p.1.v)
    (fun p fs hp q hq => hp q (by simp [hq]))
    ?_ fs r0 (mkTG r0 fs).length hok hpp le_rfl
  · rw [h]
    rfl
  · intro fl r fs' hfl hpp'
    have hpv : parenOKv fl.v := hpp' (fl, r) (by simp)
    cases hps : parenSplit fl.v with
    | none =>
      refine ⟨fun _ => ⟨?_, ?_⟩, fun d hd => by simp [hps] at hd⟩
      · simp only [parenM_fld fl _ hfl hpv, hps]
      · show (⟨fl.ws1, fl.ws2, parenValueOut fl.v⟩ : Fld) = fl
        simp only [parenValueOut, hps]
    | some ad =>
      obtain ⟨a, d2⟩ := ad
      refine ⟨fun hG => by simp [hps] at hG, fun d hd => ?_⟩
      simp only [hps, Option.map_some', Option.some_inj] at hd
      subst hd
      refine ⟨by simp only [parenM_fld fl _ hfl hpv, hps], ?_⟩
      show parenOut (tePrefix fl.ws1 fl.ws2 ++ a, d2 ++ ['"']) =
        fldChars ⟨fl.ws1, fl.ws2, parenValueOut fl.v⟩
      simp only [parenOut, parenValueOut, hps]
      simp [fldChars, tePrefix]

theorem paren_count_mkTG (r0 : List Char) (fs : List (Fld × List Char))
    (hok : okTG r0 fs) (hpp : ∀ p ∈ fs, parenOKv p.1.v) :
    (reListF parenM (mkTG r0 fs).length (mkTG r0 fs)).length =
      fs.countP (fun p => (parenSplit p.1.v).isSome) := by
  have h := reListF_mkTG parenM parenM_te
    (fun fl => (parenSplit fl.v).map
      (fun ad => (tePrefix fl.ws1 fl.ws2 ++ ad.1, ad.2 ++ ['"'])))
    (fun fs => ∀ p ∈ fs, parenOKv p.1.v)
    (fun p fs hp q hq => hp q (by simp [hq]))
    ?_ fs r0 (mkTG r0 fs).length hok hpp le_rfl
  · rw [h]
    exact filterMap_map_length _ _ fs
  · intro fl r fs' hfl hpp'
    have hpv : parenOKv fl.v := hpp' (fl, r) (by simp)
    cases hps : parenSplit fl.v with
    | none =>
      refine ⟨fun _ => ?_, fun d hd => by simp [hps] at hd⟩
      simp only [parenM_fld fl _ hfl hpv, hps]
    | some ad =>
      obtain ⟨a, d2⟩ := ad
      refine ⟨fun hG => by simp [hps] at hG, fun d hd => ?_⟩
      simp only [hps, Option.map_some', Option.some_inj] at hd
      subst hd
      simp only [parenM_fld fl _ hfl hpv, hps]

theorem hyphenSub_mkTG (r0 : List Char) (fs : List (Fld × List Char))
    (hok : okTG r0 fs) :
    hyphenSub (mkTG r0 fs) = mkTG r0 (mapVals hyphenValueOut fs) := by
  rw [hyphenSub]
  have h := reSubF_mkTG hyphenOut hyphenM hyphenM_te
    (fun fl => (splitLastHU fl.v).map
      (fun ba => (tePrefix fl.ws1 fl.ws2 ++ ba.1, ba.2 ++ ['"'])))
    (fun fl => ⟨fl.ws1, fl.ws2, hyphenValueOut fl.v⟩)
    (fun _ => True) (fun _ _ _ => trivial)
    ?_ fs r0 (mkTG r0 fs).length hok trivial le_rfl
  · rw [h]
    rfl
  · intro fl r fs' hfl _
    cases hps : splitLastHU fl.v with
    | none =>
      refine ⟨fun _ => ⟨?_, ?_⟩, fun d hd => by simp [hps] at hd⟩
      · simp only [hyphenM_fld fl _ hfl, hps]
      · show (⟨fl.ws1, fl.ws2, hyphenValueOut fl.v⟩ : Fld) = fl
        simp only [hyphenValueOut, hps]
    | some ba =>
      obtain ⟨b, a⟩ := ba
      refine ⟨fun hG => by simp [hps] at hG, fun d hd => ?_⟩
      simp only [hps, Option.map_some', Option.some_inj] at hd
      subst hd
      refine ⟨by simp only [hyphenM_fld fl _ hfl, hps], ?_⟩
      show hyphenOut (tePrefix fl.ws1 fl.ws2 ++ b, a ++ ['"']) =
        fldChars ⟨fl.ws1, fl.ws2, hyphenValueOut fl.v⟩
      simp only [hyphenOut, hyphenValueOut, hps]
      simp [fldChars, tePrefix]

theorem hyphenMatches_mkTG (r0 : List Char) (fs : List (Fld × List Char))
    (hok : okTG r0 fs) :
    hyphenMatches (mkTG r0 fs) = fs.countP (fun p => (splitLastHU p.1.v).isSome) := by
  rw [hyphenMatches]
  have h := reListF_mkTG hyphenM hyphenM_te
    (fun fl => (splitLastHU fl.v).map
      (fun ba => (tePrefix fl.ws1 fl.ws2 ++ ba.1, ba.2 ++ ['"'])))
    (fun _ => True) (fun _ _ _ => trivial)
    ?_ fs r0 (mkTG r0 fs).length hok trivial le_rfl
  · rw [h]
    exact filterMap_map_length _ _ fs
  · intro fl r fs' hfl _
    cases hps : splitLastHU fl.v with
    | none =>
      refine ⟨fun _ => ?_, fun d hd => by simp [hps] at hd⟩
      simp only [hyphenM_fld fl _ hfl, hps]
    | some ba =>
      obtain ⟨b, a⟩ := ba
      refine ⟨fun hG => by simp [hps] at hG, fun d hd => ?_⟩
      simp only [hps, Option.map_some', Option.some_inj] at hd
      subst hd
      simp only [hyphenM_fld fl _ hfl, hps]

/-! ## The word-map loop on structured contents -/

theorem mapVals_id (fs : List (Fld × List Char)) : mapVals (fun v => v) fs = fs := by
  show fs.map (fun p => p) = fs
  simp

theorem mapVals_comp (g1 g2 : List Char → List Char) (fs : List (Fld × List Char)) :
    mapVals g2 (mapVals g1 fs) = mapVals (fun v => g2 (g1 v)) fs := by
  show (fs.map _).map _ = fs.map _
  rw [List.map_map]
  rfl

theorem okTG_mapVals (g : List Char → List Char) (r0 : List Char)
    (fs : List (Fld × List Char)) (hok : okTG r0 fs)
    (hg : ∀ p ∈ fs, okSeg (g p.1.v)) : okTG r0 (mapVals g fs) := by
  refine ⟨hok.1, ?_⟩
  intro q hq
  rw [mapVals, List.mem_map] at hq
  obtain ⟨p, hp, rfl⟩ := hq
  exact ⟨⟨(hok.2 p hp).1.1, (hok.2 p hp).1.2.1, hg p hp⟩, (hok.2 p hp).2⟩

theorem chainApply_cons (w c : List Char) (word_map : List (List Char × List Char))
    (v : List Char) :
    chainApply ((w, c) :: word_map) v = chainApply word_map (if v = w then c else v) :=
  rfl

theorem word_fold_snd_mkTG (word_map : List (List Char × List Char))
    (hmap : ∀ p ∈ word_map, '"' ∉ p.1 ∧ '"' ∉ p.2 ∧ containsSeq textTok p.2 = false) :
    ∀ (acc1 : List ((List Char × List Char) × Nat)) (r0 : List Char)
      (fs : List (Fld × List Char)), okTG r0 fs →
      (word_map.foldl (fun acc p =>
          (acc.1 ++ [(p, word_count p.1 acc.2)], word_pass p.1 p.2 acc.2))
        (acc1, mkTG r0 fs)).2 =
        mkTG r0 (mapVals (chainApply word_map) fs) := by
  induction word_map with
  | nil =>
    intro acc1 r0 fs hok
    show mkTG r0 fs = mkTG r0 (mapVals (chainApply []) fs)
    rw [show chainApply [] = fun v => v from rfl, mapVals_id]
  | cons p map' ih =>
    obtain ⟨w, c⟩ := p
    intro acc1 r0 fs hok
    rw [List.foldl_cons]
    have hw : '"' ∉ w := ((hmap (w, c) (by simp))).1
    have hstep : word_pass w c (mkTG r0 fs) = mkTG r0 (mapVals (wordValueOut w c) fs) :=
      word_pass_mkTG w c r0 fs hok hw
    have hok' : okTG r0 (mapVals (wordValueOut w c) fs) := by
      refine okTG_mapVals _ r0 fs hok ?_
      intro q hq
      rw [wordValueOut]
      by_cases hv : q.1.v = w
      · rw [if_pos hv]
        exact ⟨(hmap (w, c) (by simp)).2.1, (hmap (w, c) (by simp)).2.2⟩
      · rw [if_neg hv]
        exact (hok.2 q hq).1.2.2
    have ih' := ih (fun q hq => hmap q (by simp [hq]))
      (acc1 ++ [((w, c), word_count w (mkTG r0 fs))]) r0
      (mapVals (wordValueOut w c) fs) hok'
    simp only [hstep] at ih' ⊢
    rw [ih', mapVals_comp]
    rfl

/-- C3: on well-formed contents, word replacement rewrites each quoted
field value by the chain of exact whole-value replacements of the word map
(and touches nothing else: raw text, whitespace and quotes are preserved);
a value that is never exactly equal to a wrong word — in particular one
that merely contains a wrong word as a substring — is left unchanged. -/
theorem c3_exact_whole_value (word_map : List (List Char × List Char))
    (r0 : List Char) (fs : List (Fld × List Char)) (b e : Bool)
    (hok : okTG r0 fs)
    (hmap : ∀ p ∈ word_map, '"' ∉ p.1 ∧ '"' ∉ p.2 ∧
      containsSeq textTok p.2 = false) :
    (correct_words_in_textgrid (some (mkTG r0 fs)) word_map b e).modified =
      mkTG r0 (mapVals (chainApply word_map) fs)
  ∧ (∀ v, (∀ p ∈ word_map, v ≠ p.1) → chainApply word_map v = v) := by
  constructor
  · exact word_fold_snd_mkTG word_map hmap [] r0 fs hok
  · intro v hv
    induction word_map with
    | nil => rfl
    | cons p map' ih =>
      obtain ⟨w, c⟩ := p
      rw [chainApply_cons, if_neg (hv (w, c) (by simp))]
      exact ih (fun q hq => hmap q (by simp [hq])) (fun q hq => hv q (by simp [hq]))

/-- C3 witness: the single field `text = "bla"` with the mapping
`la → xy`: the value contains the wrong word `la` as a substring but is not
an exact match, and the file content is unchanged. -/
theorem c3_exact_whole_value_witness :
    (correct_words_in_textgrid (some (mkTG []
        [(⟨[' '], [' '], ['b', 'l', 'a']⟩, [])]))
      [(['l', 'a'], ['x', 'y'])] true false).modified =
      mkTG [] (mapVals (chainApply [(['l', 'a'], ['x', 'y'])])
        [(⟨[' '], [' '], ['b', 'l', 'a']⟩, [])]) :=
  (c3_exact_whole_value [(['l', 'a'], ['x', 'y'])] []
    [(⟨[' '], [' '], ['b', 'l', 'a']⟩, [])] true false
    (by constructor <;> simp [okSeg, okFld, isPySpace, containsSeq, startsWithL, textTok])
    (by simp [containsSeq, startsWithL, textTok])).1

/-! ## Termination and fixpoint of the hyphen loop -/

theorem splitLastHU_none_of (v : List Char) (h : ∀ c ∈ v, isHU c = false) :
    splitLastHU v = none := by
  induction v with
  | nil => rfl
  | cons c cs ih =>
    simp [splitLastHU, ih (fun d hd => h d (by simp [hd])), h c (by simp)]

theorem splitLastHU_none_imp (v : List Char) (h : splitLastHU v = none) :
    ∀ c ∈ v, isHU c = false := by
  induction v with
  | nil => simp
  | cons c cs ih =>
    simp only [splitLastHU] at h
    cases h2 : splitLastHU cs with
    | some ba =>
      rw [h2] at h
      exact absurd h (by simp)
    | none =>
      rw [h2] at h
      intro d hd
      rcases List.mem_cons.mp hd with rfl | hd'
      · by_cases hc : isHU d = true
        · rw [if_pos hc] at h
          exact absurd h (by simp)
        · simpa using hc
      · exact ih h2 d hd'

theorem splitLastHU_isSome (v : List Char) (c : Char) (hc : c ∈ v)
    (hhu : isHU c = true) : (splitLastHU v).isSome = true := by
  cases h : splitLastHU v with
  | some ba => rfl
  | none =>
    have := splitLastHU_none_imp v h c hc
    rw [hhu] at this
    exact absurd this (by simp)

theorem splitLastHU_shape (v b a : List Char) (h : splitLastHU v = some (b, a)) :
    ∃ hu, isHU hu = true ∧ v = b ++ hu :: a := by
  induction v generalizing b a with
  | nil => exact absurd h (by simp [splitLastHU])
  | cons c cs ih =>
    simp only [splitLastHU] at h
    cases h2 : splitLastHU cs with
    | some ba =>
      rw [h2] at h
      obtain ⟨b2, a2⟩ := ba
      simp only [Option.some_inj, Prod.mk.injEq] at h
      obtain ⟨hb, ha⟩ := h
      obtain ⟨hu, hhu, hcs⟩ := ih b2 a2 h2
      refine ⟨hu, hhu, ?_⟩
      rw [← hb, ← ha, hcs]
      rfl
    | none =>
      rw [h2] at h
      by_cases hc : isHU c = true
      · rw [if_pos hc, Option.some_inj, Prod.mk.injEq] at h
        obtain ⟨hb, ha⟩ := h
        exact ⟨c, hc, by rw [← hb, ← ha]; rfl⟩
      · rw [if_neg hc] at h
        exact absurd h (by simp)

theorem hyphenM_some_shape (cs : List Char) (g1 g2 rest : List Char)
    (h : hyphenM cs = some ((g1, g2), rest)) :
    ∃ pre b hu a, isHU hu = true ∧ g1 = pre ++ b ∧ g2 = a ++ ['"'] ∧
      cs = pre ++ ((b ++ hu :: a) ++ '"' :: rest) := by
  rw [hyphenM] at h
  split at h
  · rename_i pre r hTE
    split at h
    · rename_i v r2 hTV
      split at h
      · rename_i b a hSL
        simp only [Option.some_inj, Prod.mk.injEq] at h
        obtain ⟨⟨hg1, hg2⟩, hrest⟩ := h
        obtain ⟨ws1, ws2, _, _, hp, hcs⟩ := matchTE_some cs pre r hTE
        obtain ⟨hu, hhu, hv⟩ := splitLastHU_shape v b a hSL
        obtain ⟨hr, _⟩ := takeValue_some r v r2 hTV
        refine ⟨pre, b, hu, a, hhu, hg1.symm, hg2.symm, ?_⟩
        rw [hcs, hp, ← hrest, ← hv, ← hr]
        simp
      · exact absurd h (by simp)
    · exact absurd h (by simp)
  · exact absurd h (by simp)

theorem hyphen_decrease : ∀ f cs,
    huCount (reSubF hyphenOut hyphenM f cs) + (reListF hyphenM f cs).length ≤
      huCount cs := by
  intro f
  induction f with
  | zero =>
    intro cs
    cases cs <;> simp [reSubF, reListF]
  | succ f ih =>
    intro cs
    cases cs with
    | nil => simp [reSubF_nil, reListF_nil]
    | cons c cs' =>
      cases hm : hyphenM (c :: cs') with
      | none =>
        rw [reSubF_step_none _ _ _ _ _ hm, reListF_step_none _ _ _ _ hm]
        have h := ih cs'
        simp only [huCount, List.countP_cons] at h ⊢
        omega
      | some dr =>
        obtain ⟨⟨g1, g2⟩, rest⟩ := dr
        rw [reSubF_step_some _ _ _ _ _ _ _ hm, reListF_step_some _ _ _ _ _ _ hm]
        obtain ⟨pre, b, hu, a, hhu, hg1, hg2, hcs⟩ := hyphenM_some_shape _ _ _ _ hm
        have h := ih rest
        subst hg1 hg2
        rw [hcs]
        simp only [hyphenOut, huCount, List.countP_append, List.countP_cons,
          List.length_cons] at h ⊢
        have h1 : isHU '"' = false := by decide
        have h2 : isHU ' ' = false := by decide
        rw [h1, hhu, h2] at *
        simp at *
        omega

theorem reSubF_id_of_no_match {μ : Type} (out : μ → List Char)
    (m : List Char → Option (μ × List Char)) :
    ∀ f cs, reListF m f cs = [] → reSubF out m f cs = cs := by
  intro f
  induction f with
  | zero =>
    intro cs _
    cases cs <;> rfl
  | succ f ih =>
    intro cs h
    cases cs with
    | nil => rfl
    | cons c cs' =>
      cases hm : m (c :: cs') with
      | some dr =>
        rw [reListF_step_some m c cs' dr.1 dr.2 f (by rw [hm])] at h
        exact absurd h (by simp)
      | none =>
        rw [reListF_step_none m c cs' f hm] at h
        rw [reSubF_step_none out m c cs' f hm, ih cs' h]

theorem hyphenSub_ne_lt (cs : List Char) (h : hyphenSub cs ≠ cs) :
    huCount (hyphenSub cs) < huCount cs := by
  have hd := hyphen_decrease cs.length cs
  cases hL : (reListF hyphenM cs.length cs).length with
  | zero =>
    exact absurd (reSubF_id_of_no_match hyphenOut hyphenM cs.length cs
      (List.length_eq_zero.mp hL)) h
  | succ n =>
    show huCount (reSubF hyphenOut hyphenM cs.length cs) < huCount cs
    rw [hL] at hd
    omega

theorem hyphenMatches_zero_of_fix (cs : List Char) (h : hyphenSub cs = cs) :
    hyphenMatches cs = 0 := by
  have hd := hyphen_decrease cs.length cs
  have hsub : reSubF hyphenOut hyphenM cs.length cs = cs := h
  rw [hsub] at hd
  show (reListF hyphenM cs.length cs).length = 0
  omega

theorem hyphenIter_fix : ∀ f m, huCount m < f →
    hyphenSub (hyphenIter f m) = hyphenIter f m := by
  intro f
  induction f with
  | zero =>
    intro m hm
    exact absurd hm (by omega)
  | succ f ih =>
    intro m hm
    show hyphenSub (if hyphenSub m = m then m else hyphenIter f (hyphenSub m)) =
      if hyphenSub m = m then m else hyphenIter f (hyphenSub m)
    by_cases ht : hyphenSub m = m
    · rw [if_pos ht, ht]
    · rw [if_neg ht]
      exact ih (hyphenSub m) (by have := hyphenSub_ne_lt m ht; omega)

theorem hyphenLoop_fix (content : List Char) :
    hyphenSub (hyphenLoop content) = hyphenLoop content :=
  hyphenIter_fix (huCount content + 1) content (by omega)

theorem hyphenLoop_no_matches (content : List Char) :
    hyphenMatches (hyphenLoop content) = 0 :=
  hyphenMatches_zero_of_fix _ (hyphenLoop_fix content)

/-! ## Replacing one character by a space preserves well-formedness -/

theorem startsWithL_mono (pat x y : List Char) (h : startsWithL pat x = true) :
    startsWithL pat (x ++ y) = true := by
  induction pat generalizing x with
  | nil => rfl
  | cons p ps ih =>
    cases x with
    | nil => exact absurd h (by simp [startsWithL])
    | cons c x' =>
      simp only [startsWithL, Bool.and_eq_true] at h ⊢
      exact ⟨h.1, ih x' h.2⟩

theorem containsSeq_append_left (pat x y : List Char) (hpat : pat ≠ [])
    (h : containsSeq pat x = true) : containsSeq pat (x ++ y) = true := by
  induction x with
  | nil =>
    exfalso
    cases pat with
    | nil => exact hpat rfl
    | cons p ps => exact absurd h (by simp [containsSeq, startsWithL])
  | cons c x' ih =>
    have h' : (startsWithL pat (c :: x') || containsSeq pat x') = true := h
    rcases Bool.or_eq_true_iff.mp h' with hsw | hcc
    · have : startsWithL pat ((c :: x') ++ y) = true := startsWithL_mono pat _ y hsw
      show (startsWithL pat ((c :: x') ++ y) || containsSeq pat (x' ++ y)) = true
      rw [this]
      rfl
    · show (startsWithL pat ((c :: x') ++ y) || containsSeq pat (x' ++ y)) = true
      rw [ih hcc]
      simp

theorem containsSeq_append_right (pat x y : List Char)
    (h : containsSeq pat y = true) : containsSeq pat (x ++ y) = true := by
  induction x with
  | nil => exact h
  | cons c x' ih => exact containsSeq_tail pat c _ ih

theorem startsWithL_stop (pat x : List Char) (m : Char) (y : List Char)
    (hm : m ∉ pat) (h : startsWithL pat (x ++ m :: y) = true) :
    startsWithL pat x = true := by
  induction pat generalizing x with
  | nil => rfl
  | cons p ps ih =>
    cases x with
    | nil =>
      simp only [List.nil_append, startsWithL, Bool.and_eq_true] at h
      exact absurd (by simpa using h.1.symm : (p = m)) (fun hpm => hm (hpm ▸ (by simp)))
    | cons c x' =>
      simp only [List.cons_append, startsWithL, Bool.and_eq_true] at h ⊢
      exact ⟨h.1, ih x' (fun hmp => hm (List.mem_cons_of_mem p hmp)) h.2⟩

theorem containsSeq_mid_split (pat : List Char) (hne : pat ≠ []) (m : Char)
    (hm : m ∉ pat) (b a : List Char)
    (h : containsSeq pat (b ++ m :: a) = true) :
    containsSeq pat b = true ∨ containsSeq pat a = true := by
  induction b with
  | nil =>
    have h' : (startsWithL pat (m :: a) || containsSeq pat a) = true := h
    rcases Bool.or_eq_true_iff.mp h' with hsw | hcc
    · exfalso
      cases pat with
      | nil => exact hne rfl
      | cons p ps =>
        simp only [startsWithL, Bool.and_eq_true] at hsw
        exact hm ((by simpa using hsw.1 : p = m) ▸ (by simp))
    · exact Or.inr hcc
  | cons c b' ih =>
    have h' : (startsWithL pat (c :: (b' ++ m :: a)) || containsSeq pat (b' ++ m :: a))
        = true := h
    rcases Bool.or_eq_true_iff.mp h' with hsw | hcc
    · left
      have hsw2 : startsWithL pat ((c :: b') ++ m :: a) = true := hsw
      have := startsWithL_stop pat (c :: b') m a hm hsw2
      exact containsSeq_cons_self pat (c :: b') this (by simp)
    · rcases ih hcc with hb | ha
      · exact Or.inl (containsSeq_tail pat c b' hb)
      · exact Or.inr ha

theorem okSeg_mid_space (b a : List Char) (hu : Char) (hq : hu ≠ '"')
    (h : okSeg (b ++ hu :: a)) : okSeg (b ++ ' ' :: a) := by
  constructor
  · intro hmem
    refine h.1 ?_
    rw [List.mem_append] at hmem ⊢
    rcases hmem with hb | hca
    · exact Or.inl hb
    · rcases List.mem_cons.mp hca with heq | ha
      · exact absurd heq (by decide)
      · exact Or.inr (List.mem_cons_of_mem hu ha)
  · by_contra hcc
    rw [Bool.not_eq_false] at hcc
    rcases containsSeq_mid_split textTok (by simp [textTok]) ' ' (by decide) b a hcc
      with hb | ha
    · have hthis := containsSeq_append_left textTok b (hu :: a) (by simp [textTok]) hb
      rw [h.2] at hthis
      exact absurd hthis (by simp)
    · have hthis := containsSeq_append_right textTok (b ++ [hu]) a ha
      rw [show (b ++ [hu]) ++ a = b ++ hu :: a by simp] at hthis
      rw [h.2] at hthis
      exact absurd hthis (by simp)


/-! ## The full hyphen loop on structured contents -/

theorem huMapVal_id_of (v : List Char) (h : ∀ c ∈ v, isHU c = false) :
    huMapVal v = v := by
  rw [huMapVal]
  conv_rhs => rw [← List.map_id v]
  refine List.map_congr_left ?_
  intro c hc
  simp [h c hc]

theorem hyphenValueOut_id_of (v : List Char) (h : ∀ c ∈ v, isHU c = false) :
    hyphenValueOut v = v := by
  rw [hyphenValueOut, splitLastHU_none_of v h]

theorem huMapVal_hyphenValueOut (v : List Char) :
    huMapVal (hyphenValueOut v) = huMapVal v := by
  rw [hyphenValueOut]
  cases hs : splitLastHU v with
  | none => rfl
  | some ba =>
    obtain ⟨b, a⟩ := ba
    obtain ⟨hu, hhu, hv⟩ := splitLastHU_shape v b a hs
    rw [hv]
    simp [huMapVal, hhu]

theorem hu_hyphenValueOut_lt (v : List Char) (h : (splitLastHU v).isSome = true) :
    huCount (hyphenValueOut v) < huCount v := by
  rw [hyphenValueOut]
  cases hs : splitLastHU v with
  | none => rw [hs] at h; exact absurd h (by simp)
  | some ba =>
    obtain ⟨b, a⟩ := ba
    obtain ⟨hu, hhu, hv⟩ := splitLastHU_shape v b a hs
    rw [hv]
    simp only [huCount, List.countP_append, List.countP_cons, hhu]
    have h2 : isHU ' ' = false := by decide
    simp [h2]

theorem hu_hyphenValueOut_le (v : List Char) :
    huCount (hyphenValueOut v) ≤ huCount v := by
  cases hs : splitLastHU v with
  | none => rw [hyphenValueOut, hs]
  | some ba =>
    exact Nat.le_of_lt (hu_hyphenValueOut_lt v (by rw [hs]; rfl))

theorem okSeg_hyphenValueOut (v : List Char) (h : okSeg v) :
    okSeg (hyphenValueOut v) := by
  rw [hyphenValueOut]
  cases hs : splitLastHU v with
  | none => exact h
  | some ba =>
    obtain ⟨b, a⟩ := ba
    obtain ⟨hu, hhu, hv⟩ := splitLastHU_shape v b a hs
    rw [hv] at h
    exact okSeg_mid_space b a hu
      (by intro he; rw [he] at hhu; exact absurd hhu (by decide)) h

theorem mapVals_id_of (T : List Char → List Char) (fs : List (Fld × List Char))
    (h : ∀ p ∈ fs, T p.1.v = p.1.v) : mapVals T fs = fs := by
  rw [mapVals]
  conv_rhs => rw [← List.map_id fs]
  refine List.map_congr_left ?_
  intro p hp
  rw [h p hp]
  rfl

theorem huCount_mkTG_ge (r0 : List Char) (fs : List (Fld × List Char)) :
    (fs.map (fun p => huCount p.1.v)).sum ≤ huCount (mkTG r0 fs) := by
  induction fs generalizing r0 with
  | nil => simp
  | cons p fs' ih =>
    obtain ⟨fl, r⟩ := p
    rw [mkTG_cons]
    simp only [List.map_cons, List.sum_cons, huCount, fldChars, List.countP_append]
    have h2 := ih r
    simp only [huCount] at h2
    omega

theorem hyphenIter_mkTG_fix (f : Nat) (r0 : List Char) (fs : List (Fld × List Char))
    (hok : okTG r0 fs) (hall : ∀ p ∈ fs, ∀ c ∈ p.1.v, isHU c = false) (hf : 0 < f) :
    hyphenIter f (mkTG r0 fs) = mkTG r0 (mapVals huMapVal fs) := by
  obtain ⟨f', rfl⟩ : ∃ f', f = f' + 1 := ⟨f - 1, by omega⟩
  have hfix : hyphenSub (mkTG r0 fs) = mkTG r0 fs := by
    rw [hyphenSub_mkTG r0 fs hok,
      mapVals_id_of hyphenValueOut fs (fun p hp => hyphenValueOut_id_of p.1.v (hall p hp))]
  show (if hyphenSub (mkTG r0 fs) = mkTG r0 fs then mkTG r0 fs
    else hyphenIter f' (hyphenSub (mkTG r0 fs))) = _
  rw [if_pos hfix,
    mapVals_id_of huMapVal fs (fun p hp => huMapVal_id_of p.1.v (hall p hp))]

theorem hyphenIter_mkTG : ∀ n f (r0 : List Char) (fs : List (Fld × List Char)),
    okTG r0 fs → (fs.map (fun p => huCount p.1.v)).sum ≤ n → n < f →
    hyphenIter f (mkTG r0 fs) = mkTG r0 (mapVals huMapVal fs) := by
  intro n
  induction n with
  | zero =>
    intro f r0 fs hok hsum hf
    refine hyphenIter_mkTG_fix f r0 fs hok ?_ (by omega)
    intro p hp c hc
    have h0 : huCount p.1.v = 0 :=
      List.sum_eq_zero_iff.mp (Nat.le_zero.mp hsum) (huCount p.1.v)
        (by rw [List.mem_map]; exact ⟨p, hp, rfl⟩)
    rw [huCount, List.countP_eq_zero] at h0
    simpa using h0 c hc
  | succ n ih =>
    intro f r0 fs hok hsum hf
    by_cases hall : ∀ p ∈ fs, huCount p.1.v = 0
    · have hsum0 : (fs.map (fun p => huCount p.1.v)).sum = 0 := by
        rw [List.sum_eq_zero_iff]
        intro x hx
        rw [List.mem_map] at hx
        obtain ⟨p, hp, rfl⟩ := hx
        exact hall p hp
      exact ih f r0 fs hok (by omega) (by omega)
    · push_neg at hall
      obtain ⟨p0, hp0, hpos0⟩ := hall
      have hpos : 0 < huCount p0.1.v := Nat.pos_of_ne_zero hpos0
      obtain ⟨f', rfl⟩ : ∃ f', f = f' + 1 := ⟨f - 1, by omega⟩
      have hsubeq : hyphenSub (mkTG r0 fs) = mkTG r0 (mapVals hyphenValueOut fs) :=
        hyphenSub_mkTG r0 fs hok
      have hmatches : 0 < hyphenMatches (mkTG r0 fs) := by
        rw [hyphenMatches_mkTG r0 fs hok]
        rw [List.countP_pos]
        refine ⟨p0, hp0, ?_⟩
        obtain ⟨c, hc, hhu⟩ : ∃ c ∈ p0.1.v, isHU c = true := by
          rw [huCount, List.countP_pos] at hpos
          exact hpos
        simp [splitLastHU_isSome p0.1.v c hc hhu]
      have hne : hyphenSub (mkTG r0 fs) ≠ mkTG r0 fs := by
        intro heq
        have := hyphenMatches_zero_of_fix _ heq
        omega
      show (if hyphenSub (mkTG r0 fs) = mkTG r0 fs then mkTG r0 fs
        else hyphenIter f' (hyphenSub (mkTG r0 fs))) = _
      rw [if_neg hne, hsubeq]
      have hok' : okTG r0 (mapVals hyphenValueOut fs) :=
        okTG_mapVals _ r0 fs hok (fun p hp => okSeg_hyphenValueOut _ (hok.2 p hp).1.2.2)
      have hsum' : ((mapVals hyphenValueOut fs).map (fun p => huCount p.1.v)).sum ≤ n := by
        have hlt : ((mapVals hyphenValueOut fs).map (fun p => huCount p.1.v)).sum <
            (fs.map (fun p => huCount p.1.v)).sum := by
          rw [mapVals, List.map_map]
          refine List.sum_lt_sum _ _ ?_ ⟨p0, hp0, ?_⟩
          · intro q hq
            exact hu_hyphenValueOut_le q.1.v
          · show huCount (hyphenValueOut p0.1.v) < huCount p0.1.v
            refine hu_hyphenValueOut_lt p0.1.v ?_
            obtain ⟨c, hc, hhu⟩ : ∃ c ∈ p0.1.v, isHU c = true := by
              rw [huCount, List.countP_pos] at hpos
              exact hpos
            exact splitLastHU_isSome p0.1.v c hc hhu
        omega
      rw [ih f' r0 (mapVals hyphenValueOut fs) hok' hsum' (by omega)]
      rw [mapVals_comp]
      have he : (fun v => huMapVal (hyphenValueOut v)) = huMapVal :=
        funext huMapVal_hyphenValueOut
      rw [he]

theorem hyphenLoop_mkTG (r0 : List Char) (fs : List (Fld × List Char))
    (hok : okTG r0 fs) :
    hyphenLoop (mkTG r0 fs) = mkTG r0 (mapVals huMapVal fs) := by
  rw [hyphenLoop]
  exact hyphenIter_mkTG (fs.map (fun p => huCount p.1.v)).sum
    (huCount (mkTG r0 fs) + 1) r0 fs hok le_rfl
    (by have := huCount_mkTG_ge r0 fs; omega)

theorem splitLastHU_isSome_iff (v : List Char) :
    (splitLastHU v).isSome = v.any isHU := by
  cases hany : v.any isHU with
  | true =>
    obtain ⟨c, hc, hhu⟩ := List.any_eq_true.mp hany
    exact splitLastHU_isSome v c hc hhu
  | false =>
    rw [splitLastHU_none_of v ?_]
    · rfl
    · intro c hc
      simpa using List.any_eq_false.mp hany c hc

theorem isHU_huMapVal (v : List Char) : ∀ c ∈ huMapVal v, isHU c = false := by
  intro c hc
  rw [huMapVal, List.mem_map] at hc
  obtain ⟨d, hd, rfl⟩ := hc
  by_cases h : isHU d = true
  · simp only [h, if_true]
    decide
  · simp only [Bool.not_eq_true] at h
    simp [h]

/-- C4: the count reported by hyphen/underscore folding on a well-formed
content equals the number of quoted field values holding at least one
hyphen or underscore — one per field, not one per replaced character. -/
theorem c4_count_amended (r0 : List Char) (fs : List (Fld × List Char))
    (b e : Bool) (hok : okTG r0 fs) :
    (replace_hyphens_underscores (some (mkTG r0 fs)) b e).count =
      fs.countP (fun p => p.1.v.any isHU) := by
  show hyphenMatches (mkTG r0 fs) - hyphenMatches (hyphenLoop (mkTG r0 fs)) = _
  rw [hyphenLoop_no_matches, hyphenMatches_mkTG r0 fs hok, Nat.sub_zero]
  simp only [splitLastHU_isSome_iff]

/-- C4 witness: a single field `text = "est_ce_que"` (two underscores)
reports a count of 1, the number of fields with a hyphen or underscore. -/
theorem c4_count_amended_witness :
    (replace_hyphens_underscores (some (mkTG []
        [(⟨[' '], [' '], "est_ce_que".toList⟩, [])])) true false).count =
      [((⟨[' '], [' '], "est_ce_que".toList⟩ : Fld), ([] : List Char))].countP
        (fun p => p.1.v.any isHU) :=
  c4_count_amended [] [(⟨[' '], [' '], "est_ce_que".toList⟩, [])] true false
    (by constructor <;> simp [okSeg, okFld, isPySpace, containsSeq, startsWithL, textTok])

/-- C5: on a well-formed content the hyphen/underscore folding loop
terminates at a fixpoint in which every hyphen and underscore inside a
quoted field value has been replaced by a single space: the resulting
content is the same structure with each value mapped by `huMapVal`, the
resulting values hold no hyphen or underscore at all, and on any content
whatsoever the folded result has zero remaining matches of the pattern. -/
theorem c5_hyphen_folding (r0 : List Char) (fs : List (Fld × List Char))
    (b e : Bool) (hok : okTG r0 fs) :
    (replace_hyphens_underscores (some (mkTG r0 fs)) b e).modified =
      mkTG r0 (mapVals huMapVal fs)
  ∧ (∀ p ∈ mapVals huMapVal fs, ∀ c ∈ p.1.v, isHU c = false)
  ∧ (∀ content, hyphenMatches (hyphenLoop content) = 0) := by
  refine ⟨?_, ?_, hyphenLoop_no_matches⟩
  · show hyphenLoop (mkTG r0 fs) = _
    exact hyphenLoop_mkTG r0 fs hok
  · intro p hp
    rw [mapVals, List.mem_map] at hp
    obtain ⟨q, hq, rfl⟩ := hp
    exact isHU_huMapVal q.1.v

/-- C5 witness: folding the single field `text = "est_ce_que"` yields
`text = "est ce que"` and leaves no underscore in the value. -/
theorem c5_hyphen_folding_witness :
    (replace_hyphens_underscores (some (mkTG []
        [(⟨[' '], [' '], "est_ce_que".toList⟩, [])])) true false).modified =
      mkTG [] (mapVals huMapVal [(⟨[' '], [' '], "est_ce_que".toList⟩, [])])
  ∧ mapVals huMapVal [((⟨[' '], [' '], "est_ce_que".toList⟩ : Fld), ([] : List Char))] =
      [(⟨[' '], [' '], "est ce que".toList⟩, [])] :=
  ⟨(c5_hyphen_folding [] [(⟨[' '], [' '], "est_ce_que".toList⟩, [])] true false
    (by constructor <;>
      simp [okSeg, okFld, isPySpace, containsSeq, startsWithL, textTok])).1,
   by decide⟩

/-- C6: on a well-formed content whose field values close every opening
parenthesis, parenthesis stripping removes, per quoted field value, the
first span from the first `(` through the next `)` (at most one removal
per field per run), and the reported count is the number of fields in which
a removal happened. -/
theorem c6_paren_amended (r0 : List Char) (fs : List (Fld × List Char))
    (b e : Bool) (hok : okTG r0 fs) (hpp : ∀ p ∈ fs, parenOKv p.1.v) :
    (remove_parentheses_content (some (mkTG r0 fs)) b e).modified =
      mkTG r0 (mapVals parenValueOut fs)
  ∧ (remove_parentheses_content (some (mkTG r0 fs)) b e).count =
      fs.countP (fun p => (parenSplit p.1.v).isSome) := by
  constructor
  · show reSubF parenOut parenM (mkTG r0 fs).length (mkTG r0 fs) = _
    exact paren_sub_mkTG r0 fs hok hpp
  · show (reListF parenM (mkTG r0 fs).length (mkTG r0 fs)).length = _
    exact paren_count_mkTG r0 fs hok hpp

/-- C6 witness: stripping the single field `text = "id(le)"` yields
`text = "id"` with a reported count of 1. -/
theorem c6_paren_amended_witness :
    ((remove_parentheses_content (some (mkTG []
        [(⟨[' '], [' '], "id(le)".toList⟩, [])])) true false).modified =
      mkTG [] (mapVals parenValueOut [(⟨[' '], [' '], "id(le)".toList⟩, [])])
  ∧ (remove_parentheses_content (some (mkTG []
        [(⟨[' '], [' '], "id(le)".toList⟩, [])])) true false).count =
      [((⟨[' '], [' '], "id(le)".toList⟩ : Fld), ([] : List Char))].countP
        (fun p => (parenSplit p.1.v).isSome))
  ∧ mapVals parenValueOut [((⟨[' '], [' '], "id(le)".toList⟩ : Fld), ([] : List Char))] =
      [(⟨[' '], [' '], "id".toList⟩, [])]
  ∧ [((⟨[' '], [' '], "id(le)".toList⟩ : Fld), ([] : List Char))].countP
      (fun p => (parenSplit p.1.v).isSome) = 1 :=
  ⟨c6_paren_amended [] [(⟨[' '], [' '], "id(le)".toList⟩, [])] true false
    (by constructor <;>
      simp [okSeg, okFld, isPySpace, containsSeq, startsWithL, textTok])
    (by intro p hp; simp at hp; subst hp; intro _; decide),
   by decide, by decide⟩

/-! ## Shape of the spacing-fix value matchers -/

theorem dropWhile_append_all (p : Char → Bool) (l1 l2 : List Char)
    (h : ∀ c ∈ l1, p c = true) :
    (l1 ++ l2).dropWhile p = l2.dropWhile p := by
  induction l1 with
  | nil => rfl
  | cons c cs ih =>
    rw [List.cons_append, List.dropWhile_cons, if_pos (h c (by simp))]
    exact ih (fun d hd => h d (List.mem_cons_of_mem c hd))

theorem takeWhile_append_all (p : Char → Bool) (l1 l2 : List Char)
    (h : ∀ c ∈ l1, p c = true) :
    (l1 ++ l2).takeWhile p = l1 ++ l2.takeWhile p := by
  induction l1 with
  | nil => rfl
  | cons c cs ih =>
    rw [List.cons_append, List.takeWhile_cons, if_pos (h c (by simp))]
    rw [ih (fun d hd => h d (List.mem_cons_of_mem c hd))]
    rfl

theorem dropWhile_not_all (p : Char → Bool) :
    ∀ l : List Char, l.all p = false →
    ∃ w rest, l.dropWhile p = w :: rest ∧ p w = false ∧ w ∈ l := by
  intro l
  induction l with
  | nil => intro h; exact absurd h (by simp)
  | cons c cs ih =>
    intro h
    by_cases hc : p c = true
    · rw [List.all_cons, hc, Bool.true_and] at h
      obtain ⟨w, rest, hd, hw, hmem⟩ := ih h
      refine ⟨w, rest, ?_, hw, List.mem_cons_of_mem c hmem⟩
      rw [List.dropWhile_cons, if_pos hc]
      exact hd
    · rw [Bool.not_eq_true] at hc
      exact ⟨c, cs, by rw [List.dropWhile_cons, hc]; rfl, hc, by simp⟩

theorem dropWhile_append_not_all (p : Char → Bool) (l1 l2 : List Char)
    (h : l1.all p = false) :
    (l1 ++ l2).dropWhile p = l1.dropWhile p ++ l2 := by
  induction l1 with
  | nil => exact absurd h (by simp)
  | cons c cs ih =>
    by_cases hc : p c = true
    · rw [List.all_cons, hc, Bool.true_and] at h
      rw [List.cons_append, List.dropWhile_cons, if_pos hc,
        List.dropWhile_cons, if_pos hc]
      exact ih h
    · rw [Bool.not_eq_true] at hc
      rw [List.cons_append, List.dropWhile_cons, hc, List.dropWhile_cons, hc]
      rfl

theorem getLast_append_ne_nil (l m : List Char) (hm : m ≠ []) :
    (l ++ m).getLast? = m.getLast? := by
  induction l with
  | nil => rfl
  | cons c cs ih =>
    rw [List.cons_append]
    cases hcm : cs ++ m with
    | nil => exact absurd (List.append_eq_nil.mp hcm).2 hm
    | cons d ds =>
      rw [List.getLast?_cons_cons, ← hcm]
      exact ih

theorem getLast_append_singleton (l : List Char) (a : Char) :
    (l ++ [a]).getLast? = some a := by
  rw [getLast_append_ne_nil l [a] (by simp)]
  rfl

theorem getLast_mem_of_ne_nil :
    ∀ l : List Char, l ≠ [] → ∃ w, l.getLast? = some w ∧ w ∈ l := by
  intro l
  induction l with
  | nil => intro h; exact absurd rfl h
  | cons c cs ih =>
    intro _
    cases hcs : cs with
    | nil => exact ⟨c, by simp, by simp⟩
    | cons d ds =>
      obtain ⟨w, hw, hmem⟩ := ih (by simp [hcs])
      rw [hcs] at hw hmem
      exact ⟨w, by rw [List.getLast?_cons_cons]; exact hw,
        List.mem_cons_of_mem c hmem⟩

theorem endsWD_shape : ∀ (v u : List Char) (wc : Char),
    endsWD v = some (u, wc) → isWordCh wc = true ∧ v = u ++ wc :: ['.'] := by
  intro v
  induction v with
  | nil => intro u wc h; exact absurd h (by simp [endsWD])
  | cons c cs ih =>
    intro u wc h
    simp only [endsWD] at h
    cases h2 : endsWD cs with
    | some uw =>
      obtain ⟨u2, wc2⟩ := uw
      rw [h2] at h
      simp only [Option.some_inj, Prod.mk.injEq] at h
      obtain ⟨hu, hwc⟩ := h
      obtain ⟨hw, hv⟩ := ih u2 wc2 h2
      subst hwc
      refine ⟨hw, ?_⟩
      rw [← hu, hv]
      rfl
    | none =>
      rw [h2] at h
      have h' : wdBaseV c cs = some (u, wc) := h
      cases cs with
      | nil => exact absurd h' (by simp [wdBaseV])
      | cons c1 cs2 =>
        cases cs2 with
        | cons d cs3 => exact absurd h' (by simp [wdBaseV])
        | nil =>
          have h'' : (if c1 = '.' && isWordCh c then some ([], c)
              else (none : Option (List Char × Char))) = some (u, wc) := h'
          by_cases hcnd : (c1 = '.' && isWordCh c) = true
          · rw [if_pos hcnd, Option.some_inj, Prod.mk.injEq] at h''
            obtain ⟨hu, hc⟩ := h''
            subst hc
            simp only [Bool.and_eq_true, decide_eq_true_eq] at hcnd
            obtain ⟨hc1, hwc⟩ := hcnd
            subst hc1
            refine ⟨hwc, ?_⟩
            rw [← hu]
            rfl
          · rw [if_neg hcnd] at h''
            exact absurd h'' (by simp)

theorem endsWDS_shape : ∀ (v u : List Char) (wc : Char) (sp : List Char),
    endsWDS v = some (u, wc, sp) →
    isWordCh wc = true ∧ sp ≠ [] ∧ sp.all isPySpace = true ∧
      v = u ++ wc :: '.' :: sp := by
  intro v
  induction v with
  | nil => intro u wc sp h; exact absurd h (by simp [endsWDS])
  | cons c cs ih =>
    intro u wc sp h
    simp only [endsWDS] at h
    cases h2 : endsWDS cs with
    | some uws =>
      obtain ⟨u2, wc2, sp2⟩ := uws
      rw [h2] at h
      simp only [Option.some_inj, Prod.mk.injEq] at h
      obtain ⟨hu, hwc, hsp⟩ := h
      obtain ⟨hw, hne, hall, hv⟩ := ih u2 wc2 sp2 h2
      subst hwc
      subst hsp
      refine ⟨hw, hne, hall, ?_⟩
      rw [← hu, hv]
      rfl
    | none =>
      rw [h2] at h
      have h' : wdsBaseV c cs = some (u, wc, sp) := h
      cases cs with
      | nil => exact absurd h' (by simp [wdsBaseV])
      | cons c1 sp2 =>
        have h'' : (if c1 = '.' && isWordCh c && !sp2.isEmpty && sp2.all isPySpace
            then some ([], c, sp2)
            else (none : Option (List Char × Char × List Char))) =
            some (u, wc, sp) := h'
        by_cases hcnd : (c1 = '.' && isWordCh c && !sp2.isEmpty &&
            sp2.all isPySpace) = true
        · rw [if_pos hcnd, Option.some_inj, Prod.mk.injEq] at h''
          obtain ⟨hu, hrest⟩ := h''
          rw [Prod.mk.injEq] at hrest
          obtain ⟨hc, hsp⟩ := hrest
          subst hc
          subst hsp
          simp only [Bool.and_eq_true, decide_eq_true_eq] at hcnd
          obtain ⟨⟨⟨hc1, hwc⟩, hne⟩, hall⟩ := hcnd
          subst hc1
          refine ⟨hwc, ?_, hall, ?_⟩
          · intro hnil
            rw [hnil] at hne
            exact absurd hne (by simp)
          · rw [← hu]
            rfl
        · rw [if_neg hcnd] at h''
          exact absurd h'' (by simp)

theorem endsWD_last (v u : List Char) (wc : Char) (h : endsWD v = some (u, wc)) :
    v.getLast? = some '.' := by
  obtain ⟨_, hv⟩ := endsWD_shape v u wc h
  rw [hv, show u ++ wc :: ['.'] = (u ++ [wc]) ++ ['.'] by simp]
  exact getLast_append_singleton _ _

theorem endsWDS_last (v u : List Char) (wc : Char) (sp : List Char)
    (h : endsWDS v = some (u, wc, sp)) :
    ∃ w, v.getLast? = some w ∧ isPySpace w = true := by
  obtain ⟨hwc, hne, hall, hv⟩ := endsWDS_shape v u wc sp h
  obtain ⟨w, hw, hmem⟩ := getLast_mem_of_ne_nil sp hne
  refine ⟨w, ?_, ?_⟩
  · rw [hv, show u ++ wc :: '.' :: sp = (u ++ [wc, '.']) ++ sp by simp,
      getLast_append_ne_nil _ _ hne]
    exact hw
  · exact List.all_eq_true.mp hall w hmem

theorem endsWDS_append_dot (z : List Char) : endsWDS (z ++ ['.']) = none := by
  cases h : endsWDS (z ++ ['.']) with
  | none => rfl
  | some uws =>
    obtain ⟨u, wc, sp⟩ := uws
    obtain ⟨w, hw, hws⟩ := endsWDS_last _ u wc sp h
    rw [getLast_append_singleton z '.'] at hw
    injection hw with hw'
    rw [← hw'] at hws
    exact absurd hws (by decide)

theorem endsWD_none_of_WDS (v u : List Char) (wc : Char) (sp : List Char)
    (h : endsWDS v = some (u, wc, sp)) : endsWD v = none := by
  cases h2 : endsWD v with
  | none => rfl
  | some uw =>
    obtain ⟨u2, wc2⟩ := uw
    have hlast := endsWD_last v u2 wc2 h2
    obtain ⟨w, hw, hws⟩ := endsWDS_last v u wc sp h
    rw [hlast] at hw
    injection hw with hw'
    rw [← hw'] at hws
    exact absurd hws (by decide)

theorem spaceVal21_of_WD (v u : List Char) (wc : Char)
    (h : endsWD v = some (u, wc)) :
    spaceVal2 (spaceVal1 v) = u ++ wc :: ' ' :: ['.'] := by
  have h1 : spaceVal1 v = u ++ wc :: ' ' :: ['.'] := by
    simp only [spaceVal1, h]
  rw [h1]
  have h2 : endsWDS (u ++ wc :: ' ' :: ['.']) = none := by
    rw [show u ++ wc :: ' ' :: ['.'] = (u ++ [wc, ' ']) ++ ['.'] by simp]
    exact endsWDS_append_dot _
  simp only [spaceVal2, h2]

theorem spaceVal21_of_WDS (v u : List Char) (wc : Char) (sp : List Char)
    (h : endsWDS v = some (u, wc, sp)) :
    spaceVal2 (spaceVal1 v) = u ++ wc :: ' ' :: ['.'] := by
  have h1 : spaceVal1 v = v := by
    simp only [spaceVal1, endsWD_none_of_WDS v u wc sp h]
  rw [h1]
  simp only [spaceVal2, h]

theorem okSeg_prefix (x y : List Char) (h : okSeg (x ++ y)) : okSeg x := by
  constructor
  · intro hm
    exact h.1 (by rw [List.mem_append]; exact Or.inl hm)
  · by_contra hcc
    rw [Bool.not_eq_false] at hcc
    have hthis := containsSeq_append_left textTok x y (by simp [textTok]) hcc
    rw [h.2] at hthis
    exact absurd hthis (by simp)

theorem okSeg_insert_space (b a : List Char) (h : okSeg (b ++ a)) :
    okSeg (b ++ ' ' :: a) := by
  constructor
  · intro hmem
    rw [List.mem_append] at hmem
    rcases hmem with hb | hca
    · exact h.1 (by rw [List.mem_append]; exact Or.inl hb)
    · rcases List.mem_cons.mp hca with heq | ha
      · exact absurd heq (by decide)
      · exact h.1 (by rw [List.mem_append]; exact Or.inr ha)
  · by_contra hcc
    rw [Bool.not_eq_false] at hcc
    rcases containsSeq_mid_split textTok (by simp [textTok]) ' ' (by decide) b a hcc
      with hb | ha
    · have hthis := containsSeq_append_left textTok b a (by simp [textTok]) hb
      rw [h.2] at hthis
      exact absurd hthis (by simp)
    · have hthis := containsSeq_append_right textTok b a ha
      rw [h.2] at hthis
      exact absurd hthis (by simp)

theorem okSeg_spaceVal1 (v : List Char) (h : okSeg v) : okSeg (spaceVal1 v) := by
  cases hw : endsWD v with
  | none =>
    simp only [spaceVal1, hw]
    exact h
  | some uw =>
    obtain ⟨u, wc⟩ := uw
    obtain ⟨hwc, hv⟩ := endsWD_shape v u wc hw
    have he : spaceVal1 v = (u ++ [wc]) ++ ' ' :: ['.'] := by
      simp only [spaceVal1, hw]
      simp
    rw [he]
    refine okSeg_insert_space (u ++ [wc]) ['.'] ?_
    rw [show (u ++ [wc]) ++ ['.'] = u ++ wc :: ['.'] by simp, ← hv]
    exact h

theorem okSeg_spaceVal2 (v : List Char) (h : okSeg v) : okSeg (spaceVal2 v) := by
  cases hw : endsWDS v with
  | none =>
    simp only [spaceVal2, hw]
    exact h
  | some uws =>
    obtain ⟨u, wc, sp⟩ := uws
    obtain ⟨hwc, hne, hall, hv⟩ := endsWDS_shape v u wc sp hw
    have he : spaceVal2 v = (u ++ [wc]) ++ ' ' :: ['.'] := by
      simp only [spaceVal2, hw]
      simp
    rw [he]
    refine okSeg_insert_space (u ++ [wc]) ['.'] ?_
    refine okSeg_prefix _ sp ?_
    rw [show ((u ++ [wc]) ++ ['.']) ++ sp = u ++ wc :: '.' :: sp by simp, ← hv]
    exact h

theorem nl_not_spaceVal1 (v : List Char) (h : '\n' ∉ v) : '\n' ∉ spaceVal1 v := by
  cases hw : endsWD v with
  | none =>
    simp only [spaceVal1, hw]
    exact h
  | some uw =>
    obtain ⟨u, wc⟩ := uw
    obtain ⟨hwc, hv⟩ := endsWD_shape v u wc hw
    simp only [spaceVal1, hw]
    intro hmem
    rcases List.mem_append.mp hmem with hu | hc
    · exact h (by rw [hv, List.mem_append]; exact Or.inl hu)
    · rcases List.mem_cons.mp hc with heq | hc2
      · refine h ?_
        rw [hv, List.mem_append]
        exact Or.inr (by rw [← heq]; simp)
      · rcases List.mem_cons.mp hc2 with heq2 | hc3
        · exact absurd heq2 (by decide)
        · rcases List.mem_cons.mp hc3 with heq3 | hc4
          · exact absurd heq3 (by decide)
          · exact absurd hc4 (by simp)

theorem nl_not_spaceVal2 (v : List Char) (h : '\n' ∉ v) : '\n' ∉ spaceVal2 v := by
  cases hw : endsWDS v with
  | none =>
    simp only [spaceVal2, hw]
    exact h
  | some uws =>
    obtain ⟨u, wc, sp⟩ := uws
    obtain ⟨hwc, hne, hall, hv⟩ := endsWDS_shape v u wc sp hw
    simp only [spaceVal2, hw]
    intro hmem
    rcases List.mem_append.mp hmem with hu | hc
    · exact h (by rw [hv, List.mem_append]; exact Or.inl hu)
    · rcases List.mem_cons.mp hc with heq | hc2
      · refine h ?_
        rw [hv, List.mem_append]
        exact Or.inr (by rw [← heq]; simp)
      · rcases List.mem_cons.mp hc2 with heq2 | hc3
        · exact absurd heq2 (by decide)
        · rcases List.mem_cons.mp hc3 with heq3 | hc4
          · exact absurd heq3 (by decide)
          · exact absurd hc4 (by simp)

theorem findLastWDQ_cons (c : Char) (cs : List Char) :
    findLastWDQ (c :: cs) =
      if c = '\n' then none
      else
        match findLastWDQ cs with
        | some (u, wc, t) => some (c :: u, wc, t)
        | none => wdqBase c cs := rfl

theorem findLastWDS_cons (c : Char) (cs : List Char) :
    findLastWDS (c :: cs) =
      if c = '\n' then none
      else
        match findLastWDS cs with
        | some (u, wc, sp, t) => some (c :: u, wc, sp, t)
        | none => wdsBase c cs := rfl

theorem endsWD_cons (c : Char) (cs : List Char) :
    endsWD (c :: cs) =
      match endsWD cs with
      | some (u, wc) => some (c :: u, wc)
      | none => wdBaseV c cs := rfl

theorem endsWDS_cons (c : Char) (cs : List Char) :
    endsWDS (c :: cs) =
      match endsWDS cs with
      | some (u, wc, sp) => some (c :: u, wc, sp)
      | none => wdsBaseV c cs := rfl

theorem findLastWDQ_fld (v : List Char) : ∀ X : List Char, '"' ∉ v → '\n' ∉ v →
    (X = [] ∨ ∃ X2, X = '\n' :: X2) →
    findLastWDQ (v ++ '"' :: X) =
      (endsWD v).map (fun uw => (uw.1, uw.2, X)) := by
  induction v with
  | nil =>
    intro X _ _ hX
    rw [List.nil_append, findLastWDQ_cons, if_neg (by decide)]
    have hrec : findLastWDQ X = none := by
      rcases hX with rfl | ⟨X2, rfl⟩
      · rfl
      · rw [findLastWDQ_cons, if_pos rfl]
    rw [hrec]
    show wdqBase '"' X = (endsWD []).map _
    rcases hX with rfl | ⟨X2, rfl⟩
    · rfl
    · cases X2 with
      | nil => rfl
      | cons y ys => simp [wdqBase, endsWD]
  | cons c v' ih =>
    intro X hq hnl hX
    have hc : ¬ c = '\n' := fun hcc => hnl (by rw [← hcc]; simp)
    have hq' : '"' ∉ v' := fun hm => hq (List.mem_cons_of_mem c hm)
    have hnl' : '\n' ∉ v' := fun hm => hnl (List.mem_cons_of_mem c hm)
    rw [List.cons_append, findLastWDQ_cons, if_neg hc, ih X hq' hnl' hX]
    cases hW : endsWD v' with
    | some uw =>
      obtain ⟨u, wc⟩ := uw
      rw [endsWD_cons, hW]
      rfl
    | none =>
      rw [endsWD_cons, hW]
      show wdqBase c (v' ++ '"' :: X) = (wdBaseV c v').map _
      cases v' with
      | nil =>
        rcases hX with rfl | ⟨X2, rfl⟩
        · rfl
        · simp [wdqBase, wdBaseV]
      | cons d v'' =>
        cases v'' with
        | nil =>
          by_cases hd : d = '.'
          · subst hd
            by_cases hwc : isWordCh c = true
            · simp [wdqBase, wdBaseV, hwc]
            · simp [wdqBase, wdBaseV, hwc]
          · simp [wdqBase, wdBaseV, hd]
        | cons e v''' =>
          have he : ¬ e = '"' := fun hee => hq' (by rw [← hee]; simp)
          simp [wdqBase, wdBaseV, he]

theorem takeWhile_append_not_all (p : Char → Bool) (l1 l2 : List Char)
    (h : l1.all p = false) :
    (l1 ++ l2).takeWhile p = l1.takeWhile p := by
  induction l1 with
  | nil => exact absurd h (by simp)
  | cons c cs ih =>
    by_cases hc : p c = true
    · rw [List.all_cons, hc, Bool.true_and] at h
      simp [List.takeWhile_cons, hc, ih h]
    · rw [Bool.not_eq_true] at hc
      simp [List.takeWhile_cons, hc]

theorem findLastWDS_fld (v : List Char) : ∀ X : List Char, '"' ∉ v → '\n' ∉ v →
    (X = [] ∨ ∃ X2, X = '\n' :: X2) →
    findLastWDS (v ++ '"' :: X) =
      (endsWDS v).map (fun uws => (uws.1, uws.2.1, uws.2.2, X)) := by
  induction v with
  | nil =>
    intro X _ _ hX
    rw [List.nil_append, findLastWDS_cons, if_neg (by decide)]
    have hrec : findLastWDS X = none := by
      rcases hX with rfl | ⟨X2, rfl⟩
      · rfl
      · rw [findLastWDS_cons, if_pos rfl]
    rw [hrec]
    show wdsBase '"' X = (endsWDS []).map _
    rcases hX with rfl | ⟨X2, rfl⟩
    · rfl
    · simp [wdsBase, endsWDS]
  | cons c v' ih =>
    intro X hq hnl hX
    have hc : ¬ c = '\n' := fun hcc => hnl (by rw [← hcc]; simp)
    have hq' : '"' ∉ v' := fun hm => hq (List.mem_cons_of_mem c hm)
    have hnl' : '\n' ∉ v' := fun hm => hnl (List.mem_cons_of_mem c hm)
    rw [List.cons_append, findLastWDS_cons, if_neg hc, ih X hq' hnl' hX]
    cases hW : endsWDS v' with
    | some uws =>
      obtain ⟨u, wc, sp⟩ := uws
      rw [endsWDS_cons, hW]
      rfl
    | none =>
      rw [endsWDS_cons, hW]
      show wdsBase c (v' ++ '"' :: X) = (wdsBaseV c v').map _
      cases v' with
      | nil => simp [wdsBase, wdsBaseV]
      | cons d v2 =>
        rw [List.cons_append]
        by_cases hd : d = '.'
        · subst hd
          by_cases hwc : isWordCh c = true
          · by_cases hall : v2.all isPySpace = true
            · have hdrop : (v2 ++ '"' :: X).dropWhile isPySpace = '"' :: X := by
                rw [dropWhile_append_all _ _ _
                    (fun x hx => List.all_eq_true.mp hall x hx),
                  List.dropWhile_cons, if_neg (by decide)]
              have htake : (v2 ++ '"' :: X).takeWhile isPySpace = v2 := by
                rw [takeWhile_append_all _ _ _
                    (fun x hx => List.all_eq_true.mp hall x hx),
                  List.takeWhile_cons, if_neg (by decide), List.append_nil]
              rw [wdsBase, if_pos (by simp [hwc]), hdrop, htake]
              cases v2 with
              | nil => simp [wdsBaseV]
              | cons s0 sp => simp [wdsBaseV, hwc, hall]
            · rw [Bool.not_eq_true] at hall
              obtain ⟨w, rest, hdw, hwp, hwmem⟩ := dropWhile_not_all isPySpace v2 hall
              have hwq : ¬ w = '"' :=
                fun hww => hq' (by rw [← hww]; exact List.mem_cons_of_mem _ hwmem)
              have hdrop : (v2 ++ '"' :: X).dropWhile isPySpace =
                  w :: (rest ++ '"' :: X) := by
                rw [dropWhile_append_not_all _ _ _ hall, hdw]
                rfl
              rw [wdsBase, if_pos (by simp [hwc]), hdrop]
              cases htw : (v2 ++ '"' :: X).takeWhile isPySpace with
              | nil => simp [wdsBaseV, hall]
              | cons s0 sp => simp [wdsBaseV, hall, hwq]
          · rw [wdsBase, if_neg (by simp [hwc])]
            simp [wdsBaseV, hwc]
        · rw [wdsBase, if_neg (by simp [hd])]
          simp [wdsBaseV, hd]

/-! ## The spacing fix on structured contents -/

theorem nlSep_tail (p : Fld × List Char) (fs : List (Fld × List Char))
    (h : nlSep (p :: fs)) : nlSep fs := by
  cases fs with
  | nil => trivial
  | cons q fs' =>
    obtain ⟨pp, rr⟩ := p
    exact h.2

theorem nlSep_head_shape (fl : Fld) (r : List Char) (fs' : List (Fld × List Char))
    (h : nlSep ((fl, r) :: fs')) :
    mkTG r fs' = [] ∨ ∃ X2, mkTG r fs' = '\n' :: X2 := by
  cases fs' with
  | nil =>
    rcases (h : r = [] ∨ ∃ r2, r = '\n' :: r2) with hr | ⟨r2, hr⟩
    · exact Or.inl hr
    · exact Or.inr ⟨r2, hr⟩
  | cons q fs'' =>
    obtain ⟨⟨r2, hr⟩, _⟩ := (h : (∃ r2, r = '\n' :: r2) ∧ nlSep (q :: fs''))
    obtain ⟨fl2, rq⟩ := q
    refine Or.inr ⟨r2 ++ (fldChars fl2 ++ mkTG rq fs''), ?_⟩
    rw [mkTG_cons, hr]
    rfl

theorem nlSep_mapVals (g : List Char → List Char) :
    ∀ fs, nlSep fs → nlSep (mapVals g fs) := by
  intro fs
  induction fs with
  | nil => intro _; trivial
  | cons p fs' ih =>
    intro h
    cases fs' with
    | nil =>
      obtain ⟨pp, rr⟩ := p
      exact (h : rr = [] ∨ ∃ r2, rr = '\n' :: r2)
    | cons q fs'' =>
      obtain ⟨pp, rr⟩ := p
      exact ⟨h.1, ih h.2⟩

theorem p1M_fld (fl : Fld) (X : List Char) (hfl : okFld fl) (hnl : '\n' ∉ fl.v)
    (hX : X = [] ∨ ∃ X2, X = '\n' :: X2) :
    p1M (fldChars fl ++ X) =
      (endsWD fl.v).map (fun uw => ((tePrefix fl.ws1 fl.ws2, uw.1, uw.2), X)) := by
  simp only [p1M, matchTE_fld fl X hfl,
    findLastWDQ_fld fl.v X hfl.2.2.1 hnl hX]
  cases hE : endsWD fl.v with
  | none => rfl
  | some uw => rfl

theorem p2M_fld (fl : Fld) (X : List Char) (hfl : okFld fl) (hnl : '\n' ∉ fl.v)
    (hX : X = [] ∨ ∃ X2, X = '\n' :: X2) :
    p2M (fldChars fl ++ X) =
      (endsWDS fl.v).map (fun uws => ((tePrefix fl.ws1 fl.ws2, uws.1, uws.2.1), X)) := by
  simp only [p2M, matchTE_fld fl X hfl,
    findLastWDS_fld fl.v X hfl.2.2.1 hnl hX]
  cases hE : endsWDS fl.v with
  | none => rfl
  | some uws => rfl

theorem p1_sub_mkTG (r0 : List Char) (fs : List (Fld × List Char)) (hok : okTG r0 fs)
    (hpp : nlSep fs ∧ ∀ p ∈ fs, '\n' ∉ p.1.v) :
    reSubF p1Out p1M (mkTG r0 fs).length (mkTG r0 fs) =
      mkTG r0 (mapVals spaceVal1 fs) := by
  have h := reSubF_mkTG p1Out p1M p1M_te
    (fun fl => (endsWD fl.v).map (fun uw => (tePrefix fl.ws1 fl.ws2, uw.1, uw.2)))
    (fun fl => ⟨fl.ws1, fl.ws2, spaceVal1 fl.v⟩)
    (fun fs => nlSep fs ∧ ∀ p ∈ fs, '\n' ∉ p.1.v)
    (fun p fs hp => ⟨nlSep_tail p fs hp.1, fun q hq => hp.2 q (by simp [hq])⟩)
    ?_ fs r0 (mkTG r0 fs).length hok hpp le_rfl
  · rw [h]
    rfl
  · intro fl r fs' hfl hpp'
    have hX := nlSep_head_shape fl r fs' hpp'.1
    have hnl : '\n' ∉ fl.v := hpp'.2 (fl, r) (by simp)
    have hp1 := p1M_fld fl (mkTG r fs') hfl hnl hX
    cases hE : endsWD fl.v with
    | none =>
      refine ⟨fun _ => ⟨?_, ?_⟩, fun d hd => by simp [hE] at hd⟩
      · rw [hp1, hE]
        rfl
      · show (⟨fl.ws1, fl.ws2, spaceVal1 fl.v⟩ : Fld) = fl
        simp only [spaceVal1, hE]
    | some uw =>
      obtain ⟨u, wc⟩ := uw
      refine ⟨fun hG => by simp [hE] at hG, fun d hd => ?_⟩
      simp only [hE, Option.map_some', Option.some_inj] at hd
      subst hd
      refine ⟨by rw [hp1, hE]; rfl, ?_⟩
      show p1Out (tePrefix fl.ws1 fl.ws2, u, wc) =
        fldChars ⟨fl.ws1, fl.ws2, spaceVal1 fl.v⟩
      simp only [p1Out, spaceVal1, hE]
      simp [fldChars, tePrefix]

theorem p2_sub_mkTG (r0 : List Char) (fs : List (Fld × List Char)) (hok : okTG r0 fs)
    (hpp : nlSep fs ∧ ∀ p ∈ fs, '\n' ∉ p.1.v) :
    reSubF p2Out p2M (mkTG r0 fs).length (mkTG r0 fs) =
      mkTG r0 (mapVals spaceVal2 fs) := by
  have h := reSubF_mkTG p2Out p2M p2M_te
    (fun fl => (endsWDS fl.v).map (fun uws => (tePrefix fl.ws1 fl.ws2, uws.1, uws.2.1)))
    (fun fl => ⟨fl.ws1, fl.ws2, spaceVal2 fl.v⟩)
    (fun fs => nlSep fs ∧ ∀ p ∈ fs, '\n' ∉ p.1.v)
    (fun p fs hp => ⟨nlSep_tail p fs hp.1, fun q hq => hp.2 q (by simp [hq])⟩)
    ?_ fs r0 (mkTG r0 fs).length hok hpp le_rfl
  · rw [h]
    rfl
  · intro fl r fs' hfl hpp'
    have hX := nlSep_head_shape fl r fs' hpp'.1
    have hnl : '\n' ∉ fl.v := hpp'.2 (fl, r) (by simp)
    have hp2 := p2M_fld fl (mkTG r fs') hfl hnl hX
    cases hE : endsWDS fl.v with
    | none =>
      refine ⟨fun _ => ⟨?_, ?_⟩, fun d hd => by simp [hE] at hd⟩
      · rw [hp2, hE]
        rfl
      · show (⟨fl.ws1, fl.ws2, spaceVal2 fl.v⟩ : Fld) = fl
        simp only [spaceVal2, hE]
    | some uws =>
      obtain ⟨u, wc, sp⟩ := uws
      refine ⟨fun hG => by simp [hE] at hG, fun d hd => ?_⟩
      simp only [hE, Option.map_some', Option.some_inj] at hd
      subst hd
      refine ⟨by rw [hp2, hE]; rfl, ?_⟩
      show p2Out (tePrefix fl.ws1 fl.ws2, u, wc) =
        fldChars ⟨fl.ws1, fl.ws2, spaceVal2 fl.v⟩
      simp only [p2Out, spaceVal2, hE]
      simp [fldChars, tePrefix]

theorem p1_count_mkTG (r0 : List Char) (fs : List (Fld × List Char)) (hok : okTG r0 fs)
    (hpp : nlSep fs ∧ ∀ p ∈ fs, '\n' ∉ p.1.v) :
    (reListF p1M (mkTG r0 fs).length (mkTG r0 fs)).length =
      fs.countP (fun p => (endsWD p.1.v).isSome) := by
  have h := reListF_mkTG p1M p1M_te
    (fun fl => (endsWD fl.v).map (fun uw => (tePrefix fl.ws1 fl.ws2, uw.1, uw.2)))
    (fun fs => nlSep fs ∧ ∀ p ∈ fs, '\n' ∉ p.1.v)
    (fun p fs hp => ⟨nlSep_tail p fs hp.1, fun q hq => hp.2 q (by simp [hq])⟩)
    ?_ fs r0 (mkTG r0 fs).length hok hpp le_rfl
  · rw [h]
    exact filterMap_map_length _ _ fs
  · intro fl r fs' hfl hpp'
    have hX := nlSep_head_shape fl r fs' hpp'.1
    have hnl : '\n' ∉ fl.v := hpp'.2 (fl, r) (by simp)
    have hp1 := p1M_fld fl (mkTG r fs') hfl hnl hX
    cases hE : endsWD fl.v with
    | none =>
      refine ⟨fun _ => ?_, fun d hd => by simp [hE] at hd⟩
      rw [hp1, hE]
      rfl
    | some uw =>
      obtain ⟨u, wc⟩ := uw
      refine ⟨fun hG => by simp [hE] at hG, fun d hd => ?_⟩
      simp only [hE, Option.map_some', Option.some_inj] at hd
      subst hd
      rw [hp1, hE]
      rfl

theorem p2_count_mkTG (r0 : List Char) (fs : List (Fld × List Char)) (hok : okTG r0 fs)
    (hpp : nlSep fs ∧ ∀ p ∈ fs, '\n' ∉ p.1.v) :
    (reListF p2M (mkTG r0 fs).length (mkTG r0 fs)).length =
      fs.countP (fun p => (endsWDS p.1.v).isSome) := by
  have h := reListF_mkTG p2M p2M_te
    (fun fl => (endsWDS fl.v).map (fun uws => (tePrefix fl.ws1 fl.ws2, uws.1, uws.2.1)))
    (fun fs => nlSep fs ∧ ∀ p ∈ fs, '\n' ∉ p.1.v)
    (fun p fs hp => ⟨nlSep_tail p fs hp.1, fun q hq => hp.2 q (by simp [hq])⟩)
    ?_ fs r0 (mkTG r0 fs).length hok hpp le_rfl
  · rw [h]
    exact filterMap_map_length _ _ fs
  · intro fl r fs' hfl hpp'
    have hX := nlSep_head_shape fl r fs' hpp'.1
    have hnl : '\n' ∉ fl.v := hpp'.2 (fl, r) (by simp)
    have hp2 := p2M_fld fl (mkTG r fs') hfl hnl hX
    cases hE : endsWDS fl.v with
    | none =>
      refine ⟨fun _ => ?_, fun d hd => by simp [hE] at hd⟩
      rw [hp2, hE]
      rfl
    | some uws =>
      obtain ⟨u, wc, sp⟩ := uws
      refine ⟨fun hG => by simp [hE] at hG, fun d hd => ?_⟩
      simp only [hE, Option.map_some', Option.some_inj] at hd
      subst hd
      rw [hp2, hE]
      rfl

/-- C7: provided each text field lies on its own line (fields are separated
by newline-initial raw segments and values hold no newline), the spacing
fix rewrites every field value through both patterns: a value ending in a
word character immediately followed by a period before the closing quote
becomes the value with a space inserted before the period, and a value
ending in word character, period, then a nonempty whitespace run becomes
the same corrected form; the two reported sub-counts are the numbers of
fields matching each pattern, counted on the original content. -/
theorem c7_spacing_amended (r0 : List Char) (fs : List (Fld × List Char)) (b e : Bool)
    (hok : okTG r0 fs) (hnls : nlSep fs) (hnl : ∀ p ∈ fs, '\n' ∉ p.1.v) :
    (fix_space_before_dot (some (mkTG r0 fs)) b e).modified =
      mkTG r0 (mapVals (fun v => spaceVal2 (spaceVal1 v)) fs)
  ∧ (fix_space_before_dot (some (mkTG r0 fs)) b e).count1 =
      fs.countP (fun p => (endsWD p.1.v).isSome)
  ∧ (fix_space_before_dot (some (mkTG r0 fs)) b e).count2 =
      fs.countP (fun p => (endsWDS p.1.v).isSome)
  ∧ (∀ v u wc, endsWD v = some (u, wc) →
      spaceVal2 (spaceVal1 v) = u ++ wc :: ' ' :: ['.'])
  ∧ (∀ v u wc sp, endsWDS v = some (u, wc, sp) →
      spaceVal2 (spaceVal1 v) = u ++ wc :: ' ' :: ['.']) := by
  have hpp : nlSep fs ∧ ∀ p ∈ fs, '\n' ∉ p.1.v := ⟨hnls, hnl⟩
  refine ⟨?_, ?_, ?_, fun v u wc h => spaceVal21_of_WD v u wc h,
    fun v u wc sp h => spaceVal21_of_WDS v u wc sp h⟩
  · show reSubF p2Out p2M
      (reSubF p1Out p1M (mkTG r0 fs).length (mkTG r0 fs)).length
      (reSubF p1Out p1M (mkTG r0 fs).length (mkTG r0 fs)) = _
    rw [p1_sub_mkTG r0 fs hok hpp]
    have hok1 : okTG r0 (mapVals spaceVal1 fs) :=
      okTG_mapVals _ r0 fs hok (fun p hp => okSeg_spaceVal1 _ (hok.2 p hp).1.2.2)
    have hpp1 : nlSep (mapVals spaceVal1 fs) ∧
        ∀ p ∈ mapVals spaceVal1 fs, '\n' ∉ p.1.v := by
      refine ⟨nlSep_mapVals _ fs hnls, ?_⟩
      intro p hp
      rw [mapVals, List.mem_map] at hp
      obtain ⟨q, hq, rfl⟩ := hp
      exact nl_not_spaceVal1 q.1.v (hnl q hq)
    rw [p2_sub_mkTG r0 (mapVals spaceVal1 fs) hok1 hpp1, mapVals_comp]
  · exact p1_count_mkTG r0 fs hok hpp
  · exact p2_count_mkTG r0 fs hok hpp

/-- C7 witness: two fields on their own lines, `text = "arbre."` and
`text = "arbre. "`, are both corrected to `text = "arbre ."`. -/
theorem c7_spacing_amended_witness :
    (fix_space_before_dot (some (mkTG []
        [(⟨[' '], [' '], "arbre.".toList⟩, ['\n']),
         (⟨[' '], [' '], "arbre. ".toList⟩, [])])) true false).modified =
      mkTG [] (mapVals (fun v => spaceVal2 (spaceVal1 v))
        [(⟨[' '], [' '], "arbre.".toList⟩, ['\n']),
         (⟨[' '], [' '], "arbre. ".toList⟩, [])])
  ∧ mapVals (fun v => spaceVal2 (spaceVal1 v))
      [((⟨[' '], [' '], "arbre.".toList⟩ : Fld), (['\n'] : List Char)),
       (⟨[' '], [' '], "arbre. ".toList⟩, [])] =
      [(⟨[' '], [' '], "arbre .".toList⟩, ['\n']),
       (⟨[' '], [' '], "arbre .".toList⟩, [])] :=
  ⟨(c7_spacing_amended []
      [(⟨[' '], [' '], "arbre.".toList⟩, ['\n']),
       (⟨[' '], [' '], "arbre. ".toList⟩, [])] true false
      (by constructor <;>
        simp [okSeg, okFld, isPySpace, containsSeq, startsWithL, textTok])
      ⟨⟨[], rfl⟩, Or.inl rfl⟩
      (by decide)).1,
   by decide⟩
